import Mathlib

/-!
Morphology inference engine of `src/DCCJ/script.js`.

A shallow embedding of the methods `parseAPIResponse`, `extract*FormsFromAPI`,
`inferFormsFromWord`, `infer*Forms`, `isConsonant`, `getThirdPersonSingular`,
`getPastTense`, `getPastParticiple`, `getPresentParticiple` and `getPluralForm`.

Conventions of the embedding.

* A JavaScript string is a list of characters (`Str`); one `Char` stands for one
  UTF-16 code unit. For ASCII text, which is what the engine's words are, the two
  coincide.
* The object `allForms` is an insertion-ordered association list (`Forms`).
  The methods that mutate `allForms` take it as an argument and return the new one.
* A method that can throw returns an `Option`; `none` is the `TypeError` raised by
  `undefined.toLowerCase()` inside `isConsonant`.
-/

namespace DCCJ

/-- A JavaScript string. -/
abbrev Str := List Char

/-- The object `allForms`: keys in insertion order, each key at most once. -/
abbrev Forms := List (Str × Str)

/-! ## String primitives -/

/-- `s.endsWith(suffix)`. -/
def endsWith (s suffix : Str) : Bool := suffix.isSuffixOf s

/-- `s.slice(0, -k)` for a positive literal `k`: all but the last `k` characters,
the empty string when `s` is shorter than `k`. -/
def slice (s : Str) (k : Nat) : Str := s.take (s.length - k)

/-- `s[i]` for a numeric index `i` that may be negative: `none` is `undefined`. -/
def charAt (s : Str) (i : Int) : Option Char :=
  if i < 0 then none else s[i.toNat]?

/-! ## The `allForms` object -/

/-- `allForms[key]`: `none` is `undefined`. -/
def get : Forms → Str → Option Str
  | [], _ => none
  | (k, v) :: rest, key => if k = key then some v else get rest key

/-- `allForms[key] = value`: an existing key keeps its position, a new key is appended. -/
def set : Forms → Str → Str → Forms
  | [], key, value => [(key, value)]
  | (k, v) :: rest, key, value =>
      if k = key then (k, value) :: rest else (k, v) :: set rest key value

/-- JavaScript truthiness of `allForms[key]`: `undefined` and `''` are falsy. -/
def truthy : Option Str → Bool
  | none => false
  | some v => !v.isEmpty

/-- `a && b` where evaluating either operand may throw; `b` is evaluated only when `a`
is true. -/
def andThen (a b : Option Bool) : Option Bool :=
  a.bind fun x => if x then b else some false

/-! ## Helper methods (script.js 489-548) -/

/-- The method `isConsonant(char)`: `!'aeiou'.includes(char.toLowerCase())`. It throws when
`char` is `undefined`. -/
def isConsonant (char : Option Char) : Option Bool :=
  char.map fun c => !("aeiou".toList.contains c.toLower)

/-- The method `getThirdPersonSingular(verb)`. -/
def getThirdPersonSingular (verb : Str) : Option Str :=
  if endsWith verb "s".toList || endsWith verb "sh".toList || endsWith verb "ch".toList ||
      endsWith verb "x".toList || endsWith verb "z".toList then
    some (verb ++ "es".toList)
  else
    (andThen (some (endsWith verb "y".toList))
        (isConsonant (charAt verb ((verb.length : Int) - 2)))).bind fun c =>
      if c then some (slice verb 1 ++ "ies".toList) else some (verb ++ "s".toList)

/-- The method `getPastTense(verb)`. -/
def getPastTense (verb : Str) : Option Str :=
  if endsWith verb "e".toList then
    some (verb ++ "d".toList)
  else
    (andThen (some (endsWith verb "y".toList))
        (isConsonant (charAt verb ((verb.length : Int) - 2)))).bind fun c =>
      if c then some (slice verb 1 ++ "ied".toList)
      else if endsWith verb "c".toList then some (verb ++ "ked".toList)
      else some (verb ++ "ed".toList)

/-- The method `getPastParticiple(verb)`. -/
def getPastParticiple (verb : Str) : Option Str :=
  getPastTense verb

/-- The method `getPresentParticiple(verb)`. -/
def getPresentParticiple (verb : Str) : Str :=
  if endsWith verb "e".toList then slice verb 1 ++ "ing".toList
  else if endsWith verb "y".toList then verb ++ "ing".toList
  else if endsWith verb "c".toList then verb ++ "king".toList
  else verb ++ "ing".toList

/-- The method `getPluralForm(noun)`. -/
def getPluralForm (noun : Str) : Option Str :=
  if endsWith noun "s".toList || endsWith noun "sh".toList || endsWith noun "ch".toList ||
      endsWith noun "x".toList || endsWith noun "z".toList then
    some (noun ++ "es".toList)
  else
    (andThen (some (endsWith noun "y".toList))
        (isConsonant (charAt noun ((noun.length : Int) - 2)))).bind fun c =>
      if c then some (slice noun 1 ++ "ies".toList)
      else if endsWith noun "f".toList then some (slice noun 1 ++ "ves".toList)
      else if endsWith noun "fe".toList then some (slice noun 2 ++ "ves".toList)
      else some (noun ++ "s".toList)

/-! ## Spelling-based inference (script.js 394-486, 550-570) -/

/-- The block that occurs twice in `inferVerbForms`:
`if (base.length > 2 && isConsonant(base[base.length-1]) && isConsonant(base[base.length-2])
 && !isConsonant(base[base.length-3])) base = base.slice(0, -1);` returning the new `base`. -/
def undoDoubling (base : Str) : Option Str :=
  (andThen (andThen (andThen (some (decide (base.length > 2)))
      (isConsonant (charAt base ((base.length : Int) - 1))))
      (isConsonant (charAt base ((base.length : Int) - 2))))
      ((isConsonant (charAt base ((base.length : Int) - 3))).map not)).bind fun c =>
    if c then some (slice base 1) else some base

/-- The method `inferVerbForms(word, allForms)`. -/
def inferVerbForms (word : Str) (allForms : Forms) : Option Forms :=
  if endsWith word "ing".toList then
    (undoDoubling (slice word 3)).bind fun base =>
    let allForms := set allForms "原形".toList base
    let allForms := set allForms "现在分词".toList word
    (getThirdPersonSingular base).bind fun third =>
    let allForms := set allForms "第三人称单数".toList third
    (getPastTense base).bind fun past =>
    let allForms := set allForms "过去式".toList past
    (getPastParticiple base).bind fun participle =>
    some (set allForms "过去分词".toList participle)
  else if endsWith word "ed".toList then
    (undoDoubling (slice word 2)).bind fun base =>
    let allForms := set allForms "原形".toList base
    let allForms := set allForms "过去式".toList word
    let allForms := set allForms "过去分词".toList word
    (getThirdPersonSingular base).bind fun third =>
    let allForms := set allForms "第三人称单数".toList third
    some (set allForms "现在分词".toList (getPresentParticiple base))
  else
    let allForms := set allForms "原形".toList word
    (getThirdPersonSingular word).bind fun third =>
    let allForms := set allForms "第三人称单数".toList third
    (getPastTense word).bind fun past =>
    let allForms := set allForms "过去式".toList past
    (getPastParticiple word).bind fun participle =>
    let allForms := set allForms "过去分词".toList participle
    some (set allForms "现在分词".toList (getPresentParticiple word))

/-- The method `inferNounForms(word, allForms)`. -/
def inferNounForms (word : Str) (allForms : Forms) : Option Forms :=
  if endsWith word "s".toList && decide (word.length > 3) then
    if endsWith word "ies".toList then
      let singular := slice word 3 ++ "y".toList
      some (set (set allForms "单数".toList singular) "复数".toList word)
    else if endsWith word "ves".toList then
      let singular := slice word 3 ++ "f".toList
      some (set (set allForms "单数".toList singular) "复数".toList word)
    else if endsWith word "ches".toList || endsWith word "shes".toList ||
        endsWith word "xes".toList || endsWith word "zes".toList then
      let singular := slice word 2
      some (set (set allForms "单数".toList singular) "复数".toList word)
    else if endsWith word "oes".toList then
      let singular := slice word 2
      some (set (set allForms "单数".toList singular) "复数".toList word)
    else
      let singular := slice word 1
      some (set (set allForms "单数".toList singular) "复数".toList word)
  else
    let allForms := set allForms "单数".toList word
    (getPluralForm word).bind fun plural =>
    some (set allForms "复数".toList plural)

/-- The method `inferAdjectiveForms(word, allForms)`. -/
def inferAdjectiveForms (word : Str) (allForms : Forms) : Forms :=
  if endsWith word "er".toList then
    let base := slice word 2
    set (set (set allForms "原级".toList base) "比较级".toList word)
      "最高级".toList (base ++ "est".toList)
  else if endsWith word "est".toList then
    let base := slice word 3
    set (set (set allForms "原级".toList base) "比较级".toList (base ++ "er".toList))
      "最高级".toList word
  else
    set (set (set allForms "原级".toList word) "比较级".toList (word ++ "er".toList))
      "最高级".toList (word ++ "est".toList)

/-- The method `inferFormsFromWord(word, wordType, allForms)`. -/
def inferFormsFromWord (word wordType : Str) (allForms : Forms) : Option Forms :=
  if wordType = "verb".toList then inferVerbForms word allForms
  else if wordType = "noun".toList then inferNounForms word allForms
  else if wordType = "adjective".toList then some (inferAdjectiveForms word allForms)
  else some allForms

/-! ## Gloss extraction (script.js 302-392) -/

/-- The class `\w` of a regular expression without the `u` flag: `[A-Za-z0-9_]`. -/
def isWordChar (c : Char) : Bool := c.isAlphanum || c = '_'

/-- Matching the literal part of a pattern at the start of `s` under the `i` flag: the
rest of `s` after the literal. Two code units match when their upper-case forms agree;
the literals of the tables are ASCII, for which ASCII case folding is exact. -/
def matchLiteral : Str → Str → Option Str
  | [], s => some s
  | _ :: _, [] => none
  | p :: ps, c :: cs => if c.toUpper = p.toUpper then matchLiteral ps cs else none

/-- The regular expression `/<literal>(\w+)/i` tried at the start of `s`: the captured
group, the longest non-empty run of word characters after the literal. -/
def matchAt (literal s : Str) : Option Str :=
  (matchLiteral literal s).bind fun rest =>
    let word := rest.takeWhile isWordChar
    if word.isEmpty then none else some word

/-- `definition.match(/<literal>(\w+)/i)`, reduced to `match[1]`: the capture of the
leftmost match, `none` when `match` is `null`. -/
def regexCapture (literal : Str) : Str → Option Str
  | [] => matchAt literal []
  | c :: cs =>
      match matchAt literal (c :: cs) with
      | some word => some word
      | none => regexCapture literal cs

/-- A sense of the dictionary entry: `meaning.partOfSpeech` and the strings
`def.definition || ''` of `meaning.definitions`. -/
structure Meaning where
  partOfSpeech : Str
  definitions : List Str
  deriving DecidableEq

/-- The table `patterns` of `extractVerbFormsFromAPI`: key and literal of each regex. -/
def verbPatterns : List (Str × Str) :=
  [("过去式".toList, "past tense of ".toList),
   ("过去分词".toList, "past participle of ".toList),
   ("现在分词".toList, "present participle of ".toList),
   ("第三人称单数".toList, "third person singular of ".toList),
   ("过去式".toList, "simple past of ".toList),
   ("过去分词".toList, "past participle of ".toList),
   ("现在分词".toList, "gerund of ".toList)]

/-- The table `patterns` of `extractNounFormsFromAPI`. -/
def nounPatterns : List (Str × Str) :=
  [("复数".toList, "plural of ".toList),
   ("复数".toList, "plural form of ".toList),
   ("复数".toList, "irregular plural of ".toList)]

/-- The table `patterns` of `extractAdjectiveFormsFromAPI`. -/
def adjectivePatterns : List (Str × Str) :=
  [("比较级".toList, "comparative of ".toList),
   ("最高级".toList, "superlative of ".toList),
   ("比较级".toList, "comparative form of ".toList),
   ("最高级".toList, "superlative form of ".toList)]

/-- The table `patterns` of `extractAdverbFormsFromAPI`. -/
def adverbPatterns : List (Str × Str) :=
  [("比较级".toList, "comparative of ".toList),
   ("最高级".toList, "superlative of ".toList)]

/-- The body of the inner loop of the four extractors:
`const match = definition.match(pattern.regex);
 if (match && !allForms[pattern.key]) allForms[pattern.key] = match[1];`. -/
def applyPattern (definition : Str) (allForms : Forms) (pattern : Str × Str) : Forms :=
  match regexCapture pattern.2 definition with
  | some captured =>
      if !truthy (get allForms pattern.1) then set allForms pattern.1 captured else allForms
  | none => allForms

/-- The two nested loops shared by the four extractors, over a pattern table. -/
def extractWith (patterns : List (Str × Str)) (meaning : Meaning) (allForms : Forms) : Forms :=
  meaning.definitions.foldl (fun forms definition => patterns.foldl (applyPattern definition) forms)
    allForms

/-- The method `extractVerbFormsFromAPI(meaning, allForms)`. -/
def extractVerbFormsFromAPI (meaning : Meaning) (allForms : Forms) : Forms :=
  extractWith verbPatterns meaning allForms

/-- The method `extractNounFormsFromAPI(meaning, allForms)`. -/
def extractNounFormsFromAPI (meaning : Meaning) (allForms : Forms) : Forms :=
  extractWith nounPatterns meaning allForms

/-- The method `extractAdjectiveFormsFromAPI(meaning, allForms)`. -/
def extractAdjectiveFormsFromAPI (meaning : Meaning) (allForms : Forms) : Forms :=
  extractWith adjectivePatterns meaning allForms

/-- The method `extractAdverbFormsFromAPI(meaning, allForms)`. -/
def extractAdverbFormsFromAPI (meaning : Meaning) (allForms : Forms) : Forms :=
  extractWith adverbPatterns meaning allForms

/-! ## `parseAPIResponse` (script.js 245-300) -/

/-- The value `{ type, forms }` returned by `parseAPIResponse`. -/
structure ParsedData where
  type : Str
  forms : Forms
  deriving DecidableEq

/-- One iteration of `for (const meaning of meanings)` on the pair `(wordType, allForms)`.
The flags `hasVerbForms`, ... are written and never read; they are left out. -/
def stepMeaning (state : Str × Forms) (meaning : Meaning) : Str × Forms :=
  if meaning.partOfSpeech = "verb".toList then
    ("verb".toList, extractVerbFormsFromAPI meaning state.2)
  else if meaning.partOfSpeech = "noun".toList then
    (if state.1 ≠ "verb".toList then "noun".toList else state.1,
      extractNounFormsFromAPI meaning state.2)
  else if meaning.partOfSpeech = "adjective".toList then
    (if state.1 = "noun".toList then "adjective".toList else state.1,
      extractAdjectiveFormsFromAPI meaning state.2)
  else if meaning.partOfSpeech = "adverb".toList then
    (if state.1 = "noun".toList then "adverb".toList else state.1,
      extractAdverbFormsFromAPI meaning state.2)
  else state

/-- The loop of `parseAPIResponse` from its initial state
`wordType = 'noun'`, `allForms = { '原形': word }`. -/
def scanMeanings (word : Str) (meanings : List Meaning) : Str × Forms :=
  meanings.foldl stepMeaning ("noun".toList, [("原形".toList, word)])

/-- The method `parseAPIResponse(apiData)` on `apiData = { word, meanings }` with `meanings`
present; `none` is a thrown `TypeError`. -/
def parseAPIResponse (word : Str) (meanings : List Meaning) : Option ParsedData :=
  let state := scanMeanings word meanings
  let wordType := state.1
  let inferred :=
    if state.2.length = 1 then inferFormsFromWord word wordType state.2 else some state.2
  inferred.bind fun allForms =>
    some { type := wordType, forms := set allForms "词性".toList wordType }

/-! ## Notions used to state the claims about gloss extraction -/

/-- The pattern table that `parseAPIResponse` applies to a sense with the given tag: the table
of the extractor it calls, no pattern for any other tag. -/
def patternsFor (partOfSpeech : Str) : List (Str × Str) :=
  if partOfSpeech = "verb".toList then verbPatterns
  else if partOfSpeech = "noun".toList then nounPatterns
  else if partOfSpeech = "adjective".toList then adjectivePatterns
  else if partOfSpeech = "adverb".toList then adverbPatterns
  else []

/-- The matches of one gloss against a pattern table, as (label, captured word), in the order
of the table. -/
def glossCaptures (patterns : List (Str × Str)) (definition : Str) : List (Str × Str) :=
  patterns.filterMap fun pattern =>
    (regexCapture pattern.2 definition).map fun captured => (pattern.1, captured)

/-- Every matching (sense, gloss, pattern) triple as (label, captured word), in the order in
which senses are listed, glosses are listed within a sense and patterns are listed in the
table. -/
def captures (meanings : List Meaning) : List (Str × Str) :=
  meanings.flatMap fun meaning =>
    meaning.definitions.flatMap fun definition =>
      glossCaptures (patternsFor meaning.partOfSpeech) definition

/-- The guarded assignment `if (!allForms[key]) allForms[key] = value` of a match. -/
def writeOnce (allForms : Forms) (entry : Str × Str) : Forms :=
  if !truthy (get allForms entry.1) then set allForms entry.1 entry.2 else allForms

/-- The labels that occur in the four pattern tables. -/
def extractionLabels : List Str :=
  ["过去式".toList, "过去分词".toList, "现在分词".toList, "第三人称单数".toList, "复数".toList,
   "比较级".toList, "最高级".toList]

/-! ## The derivation rules in the words of the specification -/

/-- A consonant in the words of the rules: any character not in a, e, i, o, u. -/
def specConsonant (c : Char) : Bool := !("aeiou".toList.contains c)

/-- The word ends in a consonant followed by "y": its last character is y and the character
before it is a consonant. -/
def endsInConsonantY (v : Str) : Bool :=
  endsWith v "y".toList &&
    (match v.dropLast.getLast? with
     | some c => specConsonant c
     | none => false)

/-- The rule thirdPersonSingular(v) of the specification: ends in s/sh/ch/x/z gives v + "es";
otherwise ends in consonant + "y" gives v without the y plus "ies"; otherwise v + "s". -/
def specThirdPersonSingular (v : Str) : Str :=
  if endsWith v "s".toList || endsWith v "sh".toList || endsWith v "ch".toList ||
      endsWith v "x".toList || endsWith v "z".toList then v ++ "es".toList
  else if endsInConsonantY v then v.dropLast ++ "ies".toList
  else v ++ "s".toList

/-- The rule pastTense(v) of the specification: ends in "e" gives v + "d"; otherwise ends in
consonant + "y" gives v without the y plus "ied"; otherwise ends in "c" gives v + "ked";
otherwise v + "ed". -/
def specPastTense (v : Str) : Str :=
  if endsWith v "e".toList then v ++ "d".toList
  else if endsInConsonantY v then v.dropLast ++ "ied".toList
  else if endsWith v "c".toList then v ++ "ked".toList
  else v ++ "ed".toList

/-- The rule presentParticiple(v) with the case "ends in y" merged into the default: ends in
"e" gives v without the e plus "ing"; otherwise ends in "c" gives v + "king"; otherwise
v + "ing". -/
def specPresentParticiple (v : Str) : Str :=
  if endsWith v "e".toList then v.dropLast ++ "ing".toList
  else if endsWith v "c".toList then v ++ "king".toList
  else v ++ "ing".toList

/-! ## Notions used to state the dependence of the type on the order of the senses -/

/-- The senses that follow the last noun-tagged sense (all senses if none is tagged noun):
the longest final stretch of the list without a noun tag. -/
def sensesAfterLastNoun (meanings : List Meaning) : List Meaning :=
  (meanings.reverse.takeWhile fun m => decide (m.partOfSpeech ≠ "noun".toList)).reverse

/-- The tag of the first adjective- or adverb-tagged sense of a list, 'noun' if there is
none. -/
def firstAdjectiveOrAdverb (meanings : List Meaning) : Str :=
  match meanings.find? fun m =>
      decide (m.partOfSpeech = "adjective".toList ∨ m.partOfSpeech = "adverb".toList) with
  | some m => m.partOfSpeech
  | none => "noun".toList

/-! ## Basic facts about the primitives -/

theorem endsWith_iff (s suffix : Str) : endsWith s suffix = true ↔ suffix <:+ s := by
  simp [endsWith]

theorem endsWith_false_iff (s suffix : Str) : endsWith s suffix = false ↔ ¬ suffix <:+ s := by
  rw [← endsWith_iff]
  cases endsWith s suffix <;> simp

theorem suffix_one (n : Str) (a d : Char) : [a] <:+ n ++ [d] ↔ a = d := by
  rw [List.suffix_concat_iff]
  constructor
  · rintro (h | ⟨t, h, -⟩)
    · simp at h
    · have := congrArg List.getLast? h
      simp at this
      exact this
  · rintro rfl
    exact Or.inr ⟨[], rfl, List.nil_suffix⟩

theorem suffix_snoc (n t : Str) (a d : Char) : t ++ [a] <:+ n ++ [d] ↔ a = d ∧ t <:+ n := by
  rw [List.suffix_concat_iff]
  constructor
  · rintro (h | ⟨u, h, hu⟩)
    · simp at h
    · have h1 := congrArg List.getLast? h
      have h2 := congrArg List.dropLast h
      simp at h1 h2
      subst h1 h2
      exact ⟨rfl, hu⟩
  · rintro ⟨rfl, h⟩
    exact Or.inr ⟨t, rfl, h⟩

theorem suffix_two (n : Str) (a b d : Char) : [a, b] <:+ n ++ [d] ↔ b = d ∧ [a] <:+ n :=
  suffix_snoc n [a] b d

theorem suffix_three (n : Str) (a b c d : Char) :
    [a, b, c] <:+ n ++ [d] ↔ c = d ∧ [a, b] <:+ n :=
  suffix_snoc n [a, b] c d

theorem suffix_four (n : Str) (a b c e d : Char) :
    [a, b, c, e] <:+ n ++ [d] ↔ e = d ∧ [a, b, c] <:+ n :=
  suffix_snoc n [a, b, c] e d

theorem slice_append (p q : Str) : slice (p ++ q) q.length = p := by
  simp [slice]

theorem get_set_same (f : Forms) (k v : Str) : get (set f k v) k = some v := by
  induction f with
  | nil => simp [set, get]
  | cons p rest ih =>
    obtain ⟨k', v'⟩ := p
    by_cases h : k' = k
    · simp [set, get, h]
    · simp [set, get, h, ih]

theorem get_set_ne (f : Forms) (k k' v : Str) (h : k ≠ k') :
    get (set f k v) k' = get f k' := by
  induction f with
  | nil => simp [set, get, h]
  | cons p rest ih =>
    obtain ⟨k'', v''⟩ := p
    by_cases h1 : k'' = k
    · subst h1
      simp [set, get, h]
    · by_cases h2 : k'' = k'
      · subst h2
        simp [set, get, h1]
      · simp [set, get, h1, h2, ih]

theorem charAt_append_right (p q : Str) (k : Nat) (_h1 : 0 < k) (h2 : k ≤ q.length) :
    charAt (p ++ q) (((p ++ q).length : Int) - k) = q[q.length - k]? := by
  have hk : ((p ++ q).length : Int) - k = ((p.length + (q.length - k) : Nat) : Int) := by
    simp only [List.length_append]
    omega
  rw [hk]
  unfold charAt
  rw [if_neg (by omega), Int.toNat_ofNat, List.getElem?_append_right (by omega)]
  congr 1
  omega

theorem charAt_eq_none_iff (s : Str) (k : Nat) (hk : 0 < k) :
    charAt s ((s.length : Int) - k) = none ↔ s.length < k := by
  unfold charAt
  constructor
  · intro h
    by_contra hlt
    have hnn : ¬ ((s.length : Int) - k < 0) := by omega
    rw [if_neg hnn] at h
    rw [List.getElem?_eq_none_iff] at h
    omega
  · intro h
    rw [if_pos (by omega)]

/-! ## When the helpers throw -/

theorem isConsonant_eq_none_iff (char : Option Char) : isConsonant char = none ↔ char = none := by
  cases char <;> simp [isConsonant]

/-- The guard `verb.endsWith('y') && this.isConsonant(verb[verb.length-2])` throws exactly on
the one-letter word `y`. -/
theorem endsY_consonant_eq_none_iff (v : Str) :
    andThen (some (endsWith v "y".toList)) (isConsonant (charAt v ((v.length : Int) - 2))) = none
      ↔ v = ['y'] := by
  constructor
  · intro h
    cases hy : endsWith v "y".toList with
    | false =>
      rw [hy] at h
      simp [andThen] at h
    | true =>
      rw [hy] at h
      simp only [andThen, Option.some_bind, if_true] at h
      rw [isConsonant_eq_none_iff] at h
      have hlen : v.length < 2 := by
        have := (charAt_eq_none_iff v 2 (by decide)).1 (by exact_mod_cast h)
        exact this
      obtain ⟨t, rfl⟩ := (endsWith_iff _ _).1 hy
      have ht : t = [] := by
        cases t with
        | nil => rfl
        | cons a t =>
          have : (a :: t ++ "y".toList).length = t.length + 2 := by simp
          omega
      subst ht
      rfl
  · rintro rfl
    decide

theorem getThirdPersonSingular_eq_none_iff (v : Str) :
    getThirdPersonSingular v = none ↔ v = ['y'] := by
  constructor
  · intro h
    unfold getThirdPersonSingular at h
    split at h
    · cases h
    · rw [Option.bind_eq_none] at h
      apply (endsY_consonant_eq_none_iff v).1
      cases hb : andThen (some (endsWith v "y".toList))
          (isConsonant (charAt v ((v.length : Int) - 2))) with
      | none => rfl
      | some c =>
        have := h c hb
        split at this <;> cases this
  · rintro rfl
    decide

theorem getPastTense_eq_none_iff (v : Str) : getPastTense v = none ↔ v = ['y'] := by
  constructor
  · intro h
    unfold getPastTense at h
    split at h
    · cases h
    · rw [Option.bind_eq_none] at h
      apply (endsY_consonant_eq_none_iff v).1
      cases hb : andThen (some (endsWith v "y".toList))
          (isConsonant (charAt v ((v.length : Int) - 2))) with
      | none => rfl
      | some c =>
        have := h c hb
        split at this
        · cases this
        · split at this <;> cases this
  · rintro rfl
    decide

theorem getPluralForm_eq_none_iff (n : Str) : getPluralForm n = none ↔ n = ['y'] := by
  constructor
  · intro h
    unfold getPluralForm at h
    split at h
    · cases h
    · rw [Option.bind_eq_none] at h
      apply (endsY_consonant_eq_none_iff n).1
      cases hb : andThen (some (endsWith n "y".toList))
          (isConsonant (charAt n ((n.length : Int) - 2))) with
      | none => rfl
      | some c =>
        have := h c hb
        split at this
        · cases this
        · split at this
          · cases this
          · split at this <;> cases this
  · rintro rfl
    decide

/-- The doubling check never throws: every index it reads is guarded by `base.length > 2`.
Its result is `base` or `base` without its last character. -/
theorem undoDoubling_total (base : Str) :
    undoDoubling base = some base ∨ (2 < base.length ∧ undoDoubling base = some (slice base 1)) := by
  unfold undoDoubling
  by_cases hlen : 2 < base.length
  · have h1 : ∃ a, charAt base ((base.length : Int) - 1) = some a := by
      cases h : charAt base ((base.length : Int) - 1) with
      | none =>
        have := (charAt_eq_none_iff base 1 (by decide)).1 (by exact_mod_cast h)
        omega
      | some a => exact ⟨a, rfl⟩
    have h2 : ∃ a, charAt base ((base.length : Int) - 2) = some a := by
      cases h : charAt base ((base.length : Int) - 2) with
      | none =>
        have := (charAt_eq_none_iff base 2 (by decide)).1 (by exact_mod_cast h)
        omega
      | some a => exact ⟨a, rfl⟩
    have h3 : ∃ a, charAt base ((base.length : Int) - 3) = some a := by
      cases h : charAt base ((base.length : Int) - 3) with
      | none =>
        have := (charAt_eq_none_iff base 3 (by decide)).1 (by exact_mod_cast h)
        omega
      | some a => exact ⟨a, rfl⟩
    obtain ⟨a1, e1⟩ := h1
    obtain ⟨a2, e2⟩ := h2
    obtain ⟨a3, e3⟩ := h3
    rw [e1, e2, e3]
    simp only [isConsonant, Option.map_some', andThen, Option.some_bind, hlen, decide_True,
      if_true]
    generalize (!"aeiou".toList.contains a1.toLower) = b1
    generalize (!"aeiou".toList.contains a2.toLower) = b2
    generalize (!"aeiou".toList.contains a3.toLower) = b3
    cases b1 <;> cases b2 <;> cases b3 <;> simp
  · left
    simp [andThen, hlen]

/-! ## Claims about the spelling fallback -/

/-- C3: `inferNounForms` on the word "knives" takes the 'ves' branch, which strips three
characters and appends "f": it records 单数 = "knif" (not "knife", the value of the spec and
of the source comment `knives -> knife`) and 复数 = "knives". -/
theorem inferNounForms_knives (allForms : Forms) :
    ∃ f, inferNounForms "knives".toList allForms = some f ∧
      get f "单数".toList = some "knif".toList ∧
      get f "单数".toList ≠ some "knife".toList ∧
      get f "复数".toList = some "knives".toList := by
  refine ⟨set (set allForms "单数".toList "knif".toList) "复数".toList "knives".toList, ?_, ?_, ?_, ?_⟩
  · unfold inferNounForms
    rw [if_pos (by decide), if_neg (by decide), if_pos (by decide)]
    rfl
  · rw [get_set_ne _ _ _ _ (by decide), get_set_same]
  · rw [get_set_ne _ _ _ _ (by decide), get_set_same]
    decide
  · rw [get_set_same]

theorem getPluralForm_regular (n : Str)
    (hs : endsWith n "s".toList = false) (hsh : endsWith n "sh".toList = false)
    (hch : endsWith n "ch".toList = false) (hx : endsWith n "x".toList = false)
    (hz : endsWith n "z".toList = false) (hy : endsWith n "y".toList = false)
    (hf : endsWith n "f".toList = false) (hfe : endsWith n "fe".toList = false) :
    getPluralForm n = some (n ++ "s".toList) := by
  unfold getPluralForm
  rw [hs, hsh, hch, hx, hz, hy, hf, hfe]
  simp [andThen]

/-- The generic branch of `inferNounForms` on a word `n + "s"`. -/
theorem inferNounForms_generic (n : Str) (allForms : Forms) (hlen : 3 ≤ n.length)
    (hie : endsWith n "ie".toList = false) (hve : endsWith n "ve".toList = false)
    (hche : endsWith n "che".toList = false) (hshe : endsWith n "she".toList = false)
    (hxe : endsWith n "xe".toList = false) (hze : endsWith n "ze".toList = false)
    (hoe : endsWith n "oe".toList = false) :
    inferNounForms (n ++ "s".toList) allForms =
      some (set (set allForms "单数".toList n) "复数".toList (n ++ "s".toList)) := by
  rw [endsWith_false_iff] at hie hve hche hshe hxe hze hoe
  have e1 : endsWith (n ++ "s".toList) "s".toList = true :=
    (endsWith_iff _ _).2 ((suffix_one n 's' 's').2 rfl)
  have e2 : endsWith (n ++ "s".toList) "ies".toList = false :=
    (endsWith_false_iff _ _).2 fun h => hie ((suffix_three n 'i' 'e' 's' 's').1 h).2
  have e3 : endsWith (n ++ "s".toList) "ves".toList = false :=
    (endsWith_false_iff _ _).2 fun h => hve ((suffix_three n 'v' 'e' 's' 's').1 h).2
  have e4 : endsWith (n ++ "s".toList) "ches".toList = false :=
    (endsWith_false_iff _ _).2 fun h => hche ((suffix_four n 'c' 'h' 'e' 's' 's').1 h).2
  have e5 : endsWith (n ++ "s".toList) "shes".toList = false :=
    (endsWith_false_iff _ _).2 fun h => hshe ((suffix_four n 's' 'h' 'e' 's' 's').1 h).2
  have e6 : endsWith (n ++ "s".toList) "xes".toList = false :=
    (endsWith_false_iff _ _).2 fun h => hxe ((suffix_three n 'x' 'e' 's' 's').1 h).2
  have e7 : endsWith (n ++ "s".toList) "zes".toList = false :=
    (endsWith_false_iff _ _).2 fun h => hze ((suffix_three n 'z' 'e' 's' 's').1 h).2
  have e8 : endsWith (n ++ "s".toList) "oes".toList = false :=
    (endsWith_false_iff _ _).2 fun h => hoe ((suffix_three n 'o' 'e' 's' 's').1 h).2
  have e9 : decide ((n ++ "s".toList).length > 3) = true := by
    have : (n ++ "s".toList).length = n.length + 1 := by simp
    rw [this]
    exact decide_eq_true (by omega)
  have e10 : slice (n ++ "s".toList) 1 = n := slice_append n "s".toList
  unfold inferNounForms
  rw [e1, e2, e3, e4, e5, e6, e7, e8, e9, e10]
  rfl

/-- C4 (as amended): for every singular noun `n` of at least three characters that ends in none
of s, sh, ch, x, z, y, f, fe and in none of ie, ve, che, she, xe, ze, oe,
`getPluralForm(n) = n + "s"`, and `inferNounForms` on `n + "s"` takes the generic branch and
records 单数 = `n` and 复数 = `n + "s"`. -/
theorem regular_plural_round_trip (n : Str) (allForms : Forms)
    (hs : endsWith n "s".toList = false) (hsh : endsWith n "sh".toList = false)
    (hch : endsWith n "ch".toList = false) (hx : endsWith n "x".toList = false)
    (hz : endsWith n "z".toList = false) (hy : endsWith n "y".toList = false)
    (hf : endsWith n "f".toList = false) (hfe : endsWith n "fe".toList = false)
    (hlen : 3 ≤ n.length)
    (hie : endsWith n "ie".toList = false) (hve : endsWith n "ve".toList = false)
    (hche : endsWith n "che".toList = false) (hshe : endsWith n "she".toList = false)
    (hxe : endsWith n "xe".toList = false) (hze : endsWith n "ze".toList = false)
    (hoe : endsWith n "oe".toList = false) :
    getPluralForm n = some (n ++ "s".toList) ∧
    ∃ f, inferNounForms (n ++ "s".toList) allForms = some f ∧
      f = set (set allForms "单数".toList (slice (n ++ "s".toList) 1)) "复数".toList
            (n ++ "s".toList) ∧
      get f "单数".toList = some n ∧
      get f "复数".toList = some (n ++ "s".toList) := by
  refine ⟨getPluralForm_regular n hs hsh hch hx hz hy hf hfe, _,
    inferNounForms_generic n allForms hlen hie hve hche hshe hxe hze hoe, ?_, ?_, ?_⟩
  · have e : slice (n ++ "s".toList) 1 = n := slice_append n "s".toList
    rw [e]
  · rw [get_set_ne _ _ _ _ (by decide), get_set_same]
  · rw [get_set_same]

/-- Witness of `regular_plural_round_trip` at the noun "book". -/
theorem regular_plural_round_trip_witness :
    getPluralForm "book".toList = some "books".toList ∧
    ∃ f, inferNounForms "books".toList [] = some f ∧
      f = set (set [] "单数".toList (slice "books".toList 1)) "复数".toList "books".toList ∧
      get f "单数".toList = some "book".toList ∧
      get f "复数".toList = some "books".toList :=
  regular_plural_round_trip "book".toList [] (by decide) (by decide) (by decide) (by decide)
    (by decide) (by decide) (by decide) (by decide) (by decide) (by decide) (by decide)
    (by decide) (by decide) (by decide) (by decide) (by decide)

theorem length_slice (w : Str) (k : Nat) : (slice w k).length = w.length - k := by
  simp [slice]

theorem endsWith_snoc_false (n t : Str) (a : Char)
    (h : endsWith (n ++ [a]) (t ++ [a]) = false) : endsWith n t = false := by
  rw [endsWith_false_iff] at h ⊢
  exact fun hs => h ((suffix_snoc n t a a).2 ⟨rfl, hs⟩)

/-- The amendment of C4 is tight: whenever `inferNounForms` on `n + "s"` records 单数 = `n`,
the noun `n` has at least three characters and ends in none of ie, ve, che, she, xe, ze,
oe. -/
theorem regular_plural_round_trip_only_if (n : Str) (allForms f : Forms)
    (h : inferNounForms (n ++ "s".toList) allForms = some f)
    (hsing : get f "单数".toList = some n) :
    3 ≤ n.length ∧ endsWith n "ie".toList = false ∧ endsWith n "ve".toList = false ∧
    endsWith n "che".toList = false ∧ endsWith n "she".toList = false ∧
    endsWith n "xe".toList = false ∧ endsWith n "ze".toList = false ∧
    endsWith n "oe".toList = false := by
  have hl : (n ++ "s".toList).length = n.length + 1 := by simp
  have key : ∀ (singular plural : Str),
      get (set (set allForms "单数".toList singular) "复数".toList plural)
        "单数".toList = some n → singular.length = n.length := by
    intro singular plural hg
    rw [get_set_ne _ _ _ _ (by decide), get_set_same] at hg
    cases hg
    rfl
  unfold inferNounForms at h
  split at h
  · rename_i hc
    have hlen : 3 < (n ++ "s".toList).length := by
      simp only [Bool.and_eq_true, decide_eq_true_eq] at hc
      exact hc.2
    split at h
    · cases h
      have := key _ _ hsing
      rw [List.length_append, length_slice, hl] at this
      simp at this
      omega
    · rename_i hies
      split at h
      · cases h
        have := key _ _ hsing
        rw [List.length_append, length_slice, hl] at this
        simp at this
        omega
      · rename_i hves
        split at h
        · cases h
          have := key _ _ hsing
          rw [length_slice, hl] at this
          omega
        · rename_i hsib
          split at h
          · cases h
            have := key _ _ hsing
            rw [length_slice, hl] at this
            omega
          · rename_i hoes
            simp only [Bool.or_eq_true, not_or, Bool.not_eq_true] at hsib
            simp only [Bool.not_eq_true] at hies hves hoes
            obtain ⟨⟨⟨hches, hshes⟩, hxes⟩, hzes⟩ := hsib
            refine ⟨by omega, ?_, ?_, ?_, ?_, ?_, ?_, ?_⟩
            · exact endsWith_snoc_false n "ie".toList 's' hies
            · exact endsWith_snoc_false n "ve".toList 's' hves
            · exact endsWith_snoc_false n "che".toList 's' hches
            · exact endsWith_snoc_false n "she".toList 's' hshes
            · exact endsWith_snoc_false n "xe".toList 's' hxes
            · exact endsWith_snoc_false n "ze".toList 's' hzes
            · exact endsWith_snoc_false n "oe".toList 's' hoes
  · simp only [Option.bind_eq_some] at h
    obtain ⟨plural, -, h⟩ := h
    cases h
    have := key _ _ hsing
    rw [hl] at this
    omega

/-- C4 (as stated) fails: "pie", "cave", "cache", "she", "axe", "size", "shoe" and "ad" end in
none of s, sh, ch, x, z, y, f, fe and their plural is the word plus "s", yet `inferNounForms`
on that plural does not record the noun as 单数: the plurals in "ies", "ves", "ches", "shes",
"xes", "zes" and "oes" take the branch of that ending, and "ads" (not longer than 3) is taken
for a singular. -/
theorem plural_round_trip_counterexamples :
    (∀ n ∈ ["pie".toList, "cave".toList, "cache".toList, "she".toList, "axe".toList,
        "size".toList, "shoe".toList, "ad".toList],
      endsWith n "s".toList = false ∧ endsWith n "sh".toList = false ∧
      endsWith n "ch".toList = false ∧ endsWith n "x".toList = false ∧
      endsWith n "z".toList = false ∧ endsWith n "y".toList = false ∧
      endsWith n "f".toList = false ∧ endsWith n "fe".toList = false ∧
      getPluralForm n = some (n ++ "s".toList)) ∧
    inferNounForms "pies".toList [] =
      some [("单数".toList, "py".toList), ("复数".toList, "pies".toList)] ∧
    inferNounForms "caves".toList [] =
      some [("单数".toList, "caf".toList), ("复数".toList, "caves".toList)] ∧
    inferNounForms "caches".toList [] =
      some [("单数".toList, "cach".toList), ("复数".toList, "caches".toList)] ∧
    inferNounForms "shes".toList [] =
      some [("单数".toList, "sh".toList), ("复数".toList, "shes".toList)] ∧
    inferNounForms "axes".toList [] =
      some [("单数".toList, "ax".toList), ("复数".toList, "axes".toList)] ∧
    inferNounForms "sizes".toList [] =
      some [("单数".toList, "siz".toList), ("复数".toList, "sizes".toList)] ∧
    inferNounForms "shoes".toList [] =
      some [("单数".toList, "sho".toList), ("复数".toList, "shoes".toList)] ∧
    inferNounForms "ads".toList [] =
      some [("单数".toList, "ads".toList), ("复数".toList, "adses".toList)] := by
  decide

/-! ### The verb fallback -/

theorem toLower_of_isLower (c : Char) (h : c.isLower = true) : c.toLower = c := by
  simp only [Char.isLower, Bool.and_eq_true, decide_eq_true_eq] at h
  unfold Char.toLower
  have h1 : 97 ≤ c.toNat := h.1
  rw [if_neg (by omega)]

theorem isConsonant_of_lower (c : Char) (hlow : c.isLower = true) (hc : c ∉ "aeiou".toList) :
    isConsonant (some c) = some true := by
  simp only [isConsonant, Option.map_some', toLower_of_isLower c hlow]
  simpa using hc

theorem isConsonant_of_vowel (v : Char) (hv : v ∈ "aeiou".toList) :
    isConsonant (some v) = some false := by
  have : v = 'a' ∨ v = 'e' ∨ v = 'i' ∨ v = 'o' ∨ v = 'u' := by simpa using hv
  rcases this with rfl | rfl | rfl | rfl | rfl <;> decide

/-- The "ing" branch of `inferVerbForms`, once the helper calls have returned. -/
theorem inferVerbForms_ing_eq (word base third past : Str) (allForms : Forms)
    (hw : endsWith word "ing".toList = true)
    (hb : undoDoubling (slice word 3) = some base)
    (h3 : getThirdPersonSingular base = some third) (hp : getPastTense base = some past) :
    inferVerbForms word allForms =
      some (set (set (set (set (set allForms "原形".toList base) "现在分词".toList word)
        "第三人称单数".toList third) "过去式".toList past) "过去分词".toList past) := by
  unfold inferVerbForms
  rw [hw, if_pos rfl, hb]
  simp only [Option.some_bind, getPastParticiple, h3, hp]

/-- The "ed" branch of `inferVerbForms`, once the helper calls have returned. -/
theorem inferVerbForms_ed_eq (word base third : Str) (allForms : Forms)
    (hing : endsWith word "ing".toList = false) (hw : endsWith word "ed".toList = true)
    (hb : undoDoubling (slice word 2) = some base)
    (h3 : getThirdPersonSingular base = some third) :
    inferVerbForms word allForms =
      some (set (set (set (set (set allForms "原形".toList base) "过去式".toList word)
        "过去分词".toList word) "第三人称单数".toList third)
        "现在分词".toList (getPresentParticiple base)) := by
  unfold inferVerbForms
  rw [hing, if_neg (by simp), hw, if_pos rfl, hb]
  simp only [Option.some_bind, h3]

/-- The base-form branch of `inferVerbForms`, once the helper calls have returned. -/
theorem inferVerbForms_plain_eq (word third past : Str) (allForms : Forms)
    (hing : endsWith word "ing".toList = false) (hed : endsWith word "ed".toList = false)
    (h3 : getThirdPersonSingular word = some third) (hp : getPastTense word = some past) :
    inferVerbForms word allForms =
      some (set (set (set (set (set allForms "原形".toList word) "第三人称单数".toList third)
        "过去式".toList past) "过去分词".toList past)
        "现在分词".toList (getPresentParticiple word)) := by
  unfold inferVerbForms
  rw [hing, if_neg (by simp), hed, if_neg (by simp)]
  simp only [Option.some_bind, getPastParticiple, h3, hp]

/-- C8: consonant-doubling undo. For every stem `s = p + v + c` whose last letter `c` is a
lowercase consonant (not in a,e,i,o,u) preceded by a vowel `v`, `inferVerbForms` on the word
`s + c + "ing"` returns and records 原形 = `s`, not `s + c`. -/
theorem inferVerbForms_undoes_doubling (p : Str) (v c : Char) (allForms : Forms)
    (hv : v ∈ "aeiou".toList) (hlow : c.isLower = true) (hc : c ∉ "aeiou".toList) :
    ∃ f, inferVerbForms (p ++ [v, c] ++ [c] ++ "ing".toList) allForms = some f ∧
      get f "原形".toList = some (p ++ [v, c]) ∧
      get f "原形".toList ≠ some (p ++ [v, c] ++ [c]) := by
  have hword : endsWith (p ++ [v, c] ++ [c] ++ "ing".toList) "ing".toList = true :=
    (endsWith_iff _ _).2 (List.suffix_append _ _)
  have hslice : slice (p ++ [v, c] ++ [c] ++ "ing".toList) 3 = p ++ [v, c, c] := by
    have := slice_append (p ++ [v, c] ++ [c]) "ing".toList
    simpa using this
  have h1 : charAt (p ++ [v, c, c]) (((p ++ [v, c, c]).length : Int) - 1) = some c :=
    charAt_append_right p [v, c, c] 1 (by decide) (by simp)
  have h2 : charAt (p ++ [v, c, c]) (((p ++ [v, c, c]).length : Int) - 2) = some c :=
    charAt_append_right p [v, c, c] 2 (by decide) (by simp)
  have h3 : charAt (p ++ [v, c, c]) (((p ++ [v, c, c]).length : Int) - 3) = some v :=
    charAt_append_right p [v, c, c] 3 (by decide) (by simp)
  have hundo : undoDoubling (p ++ [v, c, c]) = some (p ++ [v, c]) := by
    unfold undoDoubling
    have hl : decide ((p ++ [v, c, c]).length > 2) = true := by
      apply decide_eq_true
      simp
    have hs : slice (p ++ [v, c, c]) 1 = p ++ [v, c] := by
      have := slice_append (p ++ [v, c]) [c]
      simpa using this
    rw [hl]
    simp only [Nat.cast_ofNat, Nat.cast_one] at h1 h2 h3
    rw [h1, h2, h3, isConsonant_of_lower c hlow hc, isConsonant_of_vowel v hv, hs]
    rfl
  have hny : p ++ [v, c] ≠ ['y'] := by
    intro h
    have := congrArg List.length h
    simp at this
  obtain ⟨third, hthird⟩ := Option.ne_none_iff_exists'.1
    (mt (getThirdPersonSingular_eq_none_iff _).1 hny)
  obtain ⟨past, hpast⟩ := Option.ne_none_iff_exists'.1 (mt (getPastTense_eq_none_iff _).1 hny)
  refine ⟨_, inferVerbForms_ing_eq _ _ third past allForms hword (hslice ▸ hundo) hthird hpast,
    ?_, ?_⟩
  · rw [get_set_ne _ _ _ _ (by decide), get_set_ne _ _ _ _ (by decide),
      get_set_ne _ _ _ _ (by decide), get_set_ne _ _ _ _ (by decide), get_set_same]
  · rw [get_set_ne _ _ _ _ (by decide), get_set_ne _ _ _ _ (by decide),
      get_set_ne _ _ _ _ (by decide), get_set_ne _ _ _ _ (by decide), get_set_same]
    simp

/-- Witness of `inferVerbForms_undoes_doubling` at "running": 原形 is "run", not "runn". -/
theorem inferVerbForms_undoes_doubling_witness :
    ∃ f, inferVerbForms ("r".toList ++ ['u', 'n'] ++ ['n'] ++ "ing".toList) [] = some f ∧
      get f "原形".toList = some ("r".toList ++ ['u', 'n']) ∧
      get f "原形".toList ≠ some ("r".toList ++ ['u', 'n'] ++ ['n']) :=
  inferVerbForms_undoes_doubling "r".toList 'u' 'n' [] (by decide) (by decide) (by decide)

theorem eq_slice_append (w suffix : Str) (h : endsWith w suffix = true) :
    w = slice w suffix.length ++ suffix := by
  obtain ⟨t, rfl⟩ := (endsWith_iff _ _).1 h
  rw [slice_append]

/-- The stem that `inferVerbForms` derives is the one-letter word `y` only when the stripped
word is `y` itself. -/
theorem undoDoubling_eq_y (stem base : Str) (h : undoDoubling stem = some base)
    (hy : base = ['y']) : stem = ['y'] := by
  rcases undoDoubling_total stem with h1 | ⟨hlen, h1⟩
  · rw [h1] at h
    cases h
    exact hy
  · rw [h1] at h
    cases h
    have := congrArg List.length hy
    simp [slice] at this
    omega

/-- Outside the words "ying" and "yed" the verb fallback records the surface word: every other
word in "ing" gets 现在分词 = word, every other word in "ed" gets 过去式 = 过去分词 = word. -/
theorem inferVerbForms_records_surface (w : Str) (allForms : Forms) :
    (endsWith w "ing".toList = true → w ≠ "ying".toList →
      ∃ f, inferVerbForms w allForms = some f ∧ get f "现在分词".toList = some w) ∧
    (endsWith w "ing".toList = false → endsWith w "ed".toList = true → w ≠ "yed".toList →
      ∃ f, inferVerbForms w allForms = some f ∧ get f "过去式".toList = some w ∧
        get f "过去分词".toList = some w) := by
  constructor
  · intro hing hne
    obtain ⟨base, hb⟩ : ∃ base, undoDoubling (slice w 3) = some base := by
      rcases undoDoubling_total (slice w 3) with h | ⟨-, h⟩ <;> exact ⟨_, h⟩
    have hny : base ≠ ['y'] := by
      intro hy
      have hs := undoDoubling_eq_y _ _ hb hy
      have := eq_slice_append w "ing".toList hing
      rw [show "ing".toList.length = 3 from rfl, hs] at this
      exact hne this
    obtain ⟨third, h3⟩ := Option.ne_none_iff_exists'.1
      (mt (getThirdPersonSingular_eq_none_iff _).1 hny)
    obtain ⟨past, hp⟩ := Option.ne_none_iff_exists'.1 (mt (getPastTense_eq_none_iff _).1 hny)
    refine ⟨_, inferVerbForms_ing_eq w base third past allForms hing hb h3 hp, ?_⟩
    rw [get_set_ne _ _ _ _ (by decide), get_set_ne _ _ _ _ (by decide),
      get_set_ne _ _ _ _ (by decide), get_set_same]
  · intro hing hed hne
    obtain ⟨base, hb⟩ : ∃ base, undoDoubling (slice w 2) = some base := by
      rcases undoDoubling_total (slice w 2) with h | ⟨-, h⟩ <;> exact ⟨_, h⟩
    have hny : base ≠ ['y'] := by
      intro hy
      have hs := undoDoubling_eq_y _ _ hb hy
      have := eq_slice_append w "ed".toList hed
      rw [show "ed".toList.length = 2 from rfl, hs] at this
      exact hne this
    obtain ⟨third, h3⟩ := Option.ne_none_iff_exists'.1
      (mt (getThirdPersonSingular_eq_none_iff _).1 hny)
    refine ⟨_, inferVerbForms_ed_eq w base third allForms hing hed hb h3, ?_, ?_⟩
    · rw [get_set_ne _ _ _ _ (by decide), get_set_ne _ _ _ _ (by decide),
        get_set_ne _ _ _ _ (by decide), get_set_same]
    · rw [get_set_ne _ _ _ _ (by decide), get_set_ne _ _ _ _ (by decide), get_set_same]

/-- C9: the verb fallback throws on "ying" and on "yed". "ying" ends in "ing" and "yed" ends in
"ed" (not in "ing"); both are stripped to the stem "y", on which `getThirdPersonSingular` reads
`verb[-1]` and `isConsonant` throws, so no 现在分词 = "ying" and no 过去式 = 过去分词 = "yed" is
returned, by `inferVerbForms` or by `parseAPIResponse` on a verb sense without a matching
gloss. -/
theorem inferVerbForms_ying_yed_throw (allForms : Forms) :
    endsWith "ying".toList "ing".toList = true ∧
    inferVerbForms "ying".toList allForms = none ∧
    endsWith "yed".toList "ing".toList = false ∧
    endsWith "yed".toList "ed".toList = true ∧
    inferVerbForms "yed".toList allForms = none ∧
    parseAPIResponse "ying".toList [⟨"verb".toList, []⟩] = none ∧
    parseAPIResponse "yed".toList [⟨"verb".toList, []⟩] = none := by
  refine ⟨by decide, ?_, by decide, by decide, ?_, by decide, by decide⟩
  · unfold inferVerbForms
    rw [if_pos (by decide), show undoDoubling (slice "ying".toList 3) = some ['y'] by decide]
    simp only [Option.some_bind]
    rw [show getThirdPersonSingular ['y'] = none by decide]
    rfl
  · unfold inferVerbForms
    rw [if_neg (by decide), if_pos (by decide),
      show undoDoubling (slice "yed".toList 2) = some ['y'] by decide]
    simp only [Option.some_bind]
    rw [show getThirdPersonSingular ['y'] = none by decide]
    rfl

/-- The base-form verb branch outside the word "y". For every word `w` that ends in neither
"ing" nor "ed", with `third` and `past` the values returned by `getThirdPersonSingular(w)` and
`getPastTense(w)` (they return for every `w` other than "y"), `inferVerbForms` returns and
records 原形 = `w`, 第三人称单数 = `third`, 过去式 = 过去分词 = `past` and
现在分词 = `getPresentParticiple(w)`. -/
theorem inferVerbForms_plain_records (w third past : Str) (allForms : Forms)
    (hing : endsWith w "ing".toList = false) (hed : endsWith w "ed".toList = false)
    (h3 : getThirdPersonSingular w = some third) (hp : getPastTense w = some past) :
    ∃ f, inferVerbForms w allForms = some f ∧
      get f "原形".toList = some w ∧
      get f "第三人称单数".toList = some third ∧
      get f "过去式".toList = some past ∧
      get f "过去分词".toList = some past ∧
      get f "现在分词".toList = some (getPresentParticiple w) := by
  refine ⟨_, inferVerbForms_plain_eq w third past allForms hing hed h3 hp, ?_, ?_, ?_, ?_, ?_⟩
  · rw [get_set_ne _ _ _ _ (by decide), get_set_ne _ _ _ _ (by decide),
      get_set_ne _ _ _ _ (by decide), get_set_ne _ _ _ _ (by decide), get_set_same]
  · rw [get_set_ne _ _ _ _ (by decide), get_set_ne _ _ _ _ (by decide),
      get_set_ne _ _ _ _ (by decide), get_set_same]
  · rw [get_set_ne _ _ _ _ (by decide), get_set_ne _ _ _ _ (by decide), get_set_same]
  · rw [get_set_ne _ _ _ _ (by decide), get_set_same]
  · rw [get_set_same]

/-- The base-form branch on "make": 原形 "make", 过去式 "maked", 现在分词 "making". -/
theorem inferVerbForms_make :
    ∃ f, inferVerbForms "make".toList [] = some f ∧
      get f "原形".toList = some "make".toList ∧
      get f "第三人称单数".toList = some "makes".toList ∧
      get f "过去式".toList = some "maked".toList ∧
      get f "过去分词".toList = some "maked".toList ∧
      get f "现在分词".toList = some "making".toList :=
  inferVerbForms_plain_records "make".toList "makes".toList "maked".toList [] (by decide)
    (by decide) (by decide) (by decide)

/-- C10: the base-form verb branch throws on the word "y". "y" ends in neither "ing" nor "ed"
and `getPresentParticiple("y")` is "ying", but `inferVerbForms` records no 现在分词: after
`allForms['原形'] = word` it calls `getThirdPersonSingular("y")`, which reads `verb[-1]` and
throws in `isConsonant`; `parseAPIResponse` on a verb sense without a matching gloss throws
with it. -/
theorem inferVerbForms_base_branch_throws_on_y (allForms : Forms) :
    endsWith "y".toList "ing".toList = false ∧
    endsWith "y".toList "ed".toList = false ∧
    getPresentParticiple "y".toList = "ying".toList ∧
    getThirdPersonSingular "y".toList = none ∧
    inferVerbForms "y".toList allForms = none ∧
    parseAPIResponse "y".toList [⟨"verb".toList, []⟩] = none := by
  refine ⟨by decide, by decide, by decide, by decide, ?_, by decide⟩
  unfold inferVerbForms
  rw [if_neg (by decide), if_neg (by decide)]
  simp only []
  rw [show getThirdPersonSingular "y".toList = none by decide]
  rfl

/-! ## Gloss extraction as a sequence of guarded writes -/

theorem foldl_applyPattern (definition : Str) (patterns : List (Str × Str)) (allForms : Forms) :
    patterns.foldl (applyPattern definition) allForms =
      (glossCaptures patterns definition).foldl writeOnce allForms := by
  induction patterns generalizing allForms with
  | nil => rfl
  | cons pattern rest ih =>
    rw [List.foldl_cons, ih]
    cases h : regexCapture pattern.2 definition with
    | none =>
      have : glossCaptures (pattern :: rest) definition = glossCaptures rest definition := by
        unfold glossCaptures
        rw [List.filterMap_cons_none (by rw [h]; rfl)]
      rw [this]
      simp [applyPattern, h]
    | some captured =>
      have : glossCaptures (pattern :: rest) definition =
          (pattern.1, captured) :: glossCaptures rest definition := by
        unfold glossCaptures
        rw [List.filterMap_cons_some (by rw [h]; rfl)]
      rw [this, List.foldl_cons]
      simp [applyPattern, h, writeOnce]

theorem extractWith_eq (patterns : List (Str × Str)) (meaning : Meaning) (allForms : Forms) :
    extractWith patterns meaning allForms =
      (meaning.definitions.flatMap (glossCaptures patterns)).foldl writeOnce allForms := by
  unfold extractWith
  generalize meaning.definitions = definitions
  induction definitions generalizing allForms with
  | nil => rfl
  | cons definition rest ih =>
    rw [List.foldl_cons, ih, List.flatMap_cons, List.foldl_append, foldl_applyPattern]

theorem stepMeaning_forms (state : Str × Forms) (meaning : Meaning) :
    (stepMeaning state meaning).2 = (captures [meaning]).foldl writeOnce state.2 := by
  have hc : captures [meaning] =
      meaning.definitions.flatMap (glossCaptures (patternsFor meaning.partOfSpeech)) := by
    simp [captures]
  rw [hc]
  unfold stepMeaning patternsFor
  split
  · exact extractWith_eq _ _ _
  · split
    · exact extractWith_eq _ _ _
    · split
      · exact extractWith_eq _ _ _
      · split
        · exact extractWith_eq _ _ _
        · have : meaning.definitions.flatMap (glossCaptures []) = [] :=
            List.flatMap_eq_nil_iff.2 fun _ _ => rfl
          rw [this]
          rfl

theorem foldl_stepMeaning_forms (meanings : List Meaning) (state : Str × Forms) :
    (meanings.foldl stepMeaning state).2 = (captures meanings).foldl writeOnce state.2 := by
  induction meanings generalizing state with
  | nil => rfl
  | cons meaning rest ih =>
    rw [List.foldl_cons, ih, stepMeaning_forms]
    have : captures (meaning :: rest) = captures [meaning] ++ captures rest := by
      simp [captures]
    rw [this, List.foldl_append]

theorem scanMeanings_forms (word : Str) (meanings : List Meaning) :
    (scanMeanings word meanings).2 =
      (captures meanings).foldl writeOnce [("原形".toList, word)] :=
  foldl_stepMeaning_forms meanings _

theorem matchAt_ne_nil (literal s captured : Str) (h : matchAt literal s = some captured) :
    captured ≠ [] := by
  unfold matchAt at h
  cases hm : matchLiteral literal s with
  | none => simp [hm] at h
  | some rest =>
    simp only [hm, Option.some_bind] at h
    split at h
    · cases h
    · rename_i hne
      cases h
      simpa using hne

theorem regexCapture_ne_nil (literal s captured : Str)
    (h : regexCapture literal s = some captured) : captured ≠ [] := by
  induction s with
  | nil => exact matchAt_ne_nil _ _ _ h
  | cons c cs ih =>
    unfold regexCapture at h
    cases hm : matchAt literal (c :: cs) with
    | none =>
      rw [hm] at h
      exact ih h
    | some w =>
      rw [hm] at h
      cases h
      exact matchAt_ne_nil _ _ _ hm

theorem patternsFor_labels (partOfSpeech : Str) :
    ∀ pattern ∈ patternsFor partOfSpeech, pattern.1 ∈ extractionLabels := by
  unfold patternsFor
  split
  · decide
  · split
    · decide
    · split
      · decide
      · split
        · decide
        · intro pattern h
          cases h

theorem captures_spec (meanings : List Meaning) (entry : Str × Str)
    (h : entry ∈ captures meanings) : entry.2 ≠ [] ∧ entry.1 ∈ extractionLabels := by
  simp only [captures, glossCaptures, List.mem_flatMap, List.mem_filterMap,
    Option.map_eq_some'] at h
  obtain ⟨meaning, -, definition, -, pattern, hp, captured, hc, rfl⟩ := h
  exact ⟨regexCapture_ne_nil _ _ _ hc, patternsFor_labels _ pattern hp⟩

theorem get_writeOnce_ne (f : Forms) (entry : Str × Str) (k : Str) (h : entry.1 ≠ k) :
    get (writeOnce f entry) k = get f k := by
  unfold writeOnce
  split
  · exact get_set_ne _ _ _ _ h
  · rfl

theorem get_writeOnce_of_truthy (f : Forms) (entry : Str × Str) (k v : Str)
    (h : get f k = some v) (hv : v ≠ []) : get (writeOnce f entry) k = some v := by
  by_cases hk : entry.1 = k
  · unfold writeOnce
    rw [hk, h]
    have : truthy (some v) = true := by
      cases v with
      | nil => exact absurd rfl hv
      | cons a t => rfl
    rw [this]
    simpa using h
  · rw [get_writeOnce_ne _ _ _ hk, h]

/-- An entry with a non-empty value is never overwritten by later matches. -/
theorem get_foldl_writeOnce_of_truthy (entries : List (Str × Str)) (f : Forms) (k v : Str)
    (h : get f k = some v) (hv : v ≠ []) : get (entries.foldl writeOnce f) k = some v := by
  induction entries generalizing f with
  | nil => exact h
  | cons entry rest ih => exact ih _ (get_writeOnce_of_truthy f entry k v h hv)

/-- A label that no match carries is left as it was. -/
theorem get_foldl_writeOnce_of_absent (entries : List (Str × Str)) (f : Forms) (k : Str)
    (h : ∀ entry ∈ entries, entry.1 ≠ k) : get (entries.foldl writeOnce f) k = get f k := by
  induction entries generalizing f with
  | nil => rfl
  | cons entry rest ih =>
    rw [List.foldl_cons, ih _ fun e he => h e (List.mem_cons_of_mem _ he),
      get_writeOnce_ne _ _ _ (h entry (List.mem_cons_self _ _))]

/-- A label that is unset before the loops ends up with the value of its first match. -/
theorem get_foldl_writeOnce_first (entries : List (Str × Str)) (f : Forms) (k : Str)
    (hne : ∀ entry ∈ entries, entry.2 ≠ []) (h : get f k = none) :
    get (entries.foldl writeOnce f) k = get entries k := by
  induction entries generalizing f with
  | nil => exact h
  | cons entry rest ih =>
    obtain ⟨k', v'⟩ := entry
    rw [List.foldl_cons]
    by_cases hk : k' = k
    · subst hk
      have hw : get (writeOnce f (k', v')) k' = some v' := by
        unfold writeOnce
        rw [h]
        exact get_set_same _ _ _
      rw [get_foldl_writeOnce_of_truthy rest _ k' v' hw
        (hne (k', v') (List.mem_cons_self _ _))]
      simp [get]
    · rw [ih _ (fun e he => hne e (List.mem_cons_of_mem _ he))
        (by rw [get_writeOnce_ne _ _ _ hk]; exact h)]
      simp [get, hk]

theorem length_set_le (f : Forms) (k v : Str) : f.length ≤ (set f k v).length := by
  induction f with
  | nil => simp [set]
  | cons p rest ih =>
    obtain ⟨k', v'⟩ := p
    unfold set
    split
    · simp
    · simpa using ih

theorem length_set_of_absent (f : Forms) (k v : Str) (h : get f k = none) :
    (set f k v).length = f.length + 1 := by
  induction f with
  | nil => simp [set]
  | cons p rest ih =>
    obtain ⟨k', v'⟩ := p
    unfold get at h
    unfold set
    split at h
    · cases h
    · rename_i hk
      rw [if_neg hk]
      simpa using ih h

theorem length_foldl_writeOnce_le (entries : List (Str × Str)) (f : Forms) :
    f.length ≤ (entries.foldl writeOnce f).length := by
  induction entries generalizing f with
  | nil => exact Nat.le_refl _
  | cons entry rest ih =>
    refine Nat.le_trans ?_ (ih _)
    unfold writeOnce
    split
    · exact length_set_le _ _ _
    · exact Nat.le_refl _

theorem mem_set (f : Forms) (k v : Str) (entry : Str × Str) (h : entry ∈ set f k v) :
    entry ∈ f ∨ entry = (k, v) := by
  induction f with
  | nil =>
    right
    simpa [set] using h
  | cons p rest ih =>
    obtain ⟨k', v'⟩ := p
    unfold set at h
    split at h
    · rename_i hk
      rcases List.mem_cons.1 h with h1 | h1
      · right
        rw [h1, hk]
      · exact Or.inl (List.mem_cons_of_mem _ h1)
    · rcases List.mem_cons.1 h with h1 | h1
      · exact Or.inl (h1 ▸ List.mem_cons_self _ _)
      · rcases ih h1 with h2 | h2
        · exact Or.inl (List.mem_cons_of_mem _ h2)
        · exact Or.inr h2

theorem mem_foldl_writeOnce (entries : List (Str × Str)) (f : Forms) (entry : Str × Str)
    (h : entry ∈ entries.foldl writeOnce f) : entry ∈ f ∨ entry ∈ entries := by
  induction entries generalizing f with
  | nil => exact Or.inl h
  | cons e rest ih =>
    rcases ih _ h with h1 | h1
    · unfold writeOnce at h1
      split at h1
      · rcases mem_set _ _ _ _ h1 with h2 | h2
        · exact Or.inl h2
        · exact Or.inr (h2 ▸ List.mem_cons_self _ _)
      · exact Or.inl h1
    · exact Or.inr (List.mem_cons_of_mem _ h1)

/-! ## Claims about `parseAPIResponse` -/

theorem get_seed_of_label (word k : Str) (hk : k ∈ extractionLabels) :
    get [("原形".toList, word)] k = none := by
  have hne : "原形".toList ≠ k := by
    intro h
    subst h
    revert hk
    decide
  rw [get, if_neg hne, get]

/-- The test `Object.keys(allForms).length === 1` holds exactly when no pattern matched. -/
theorem scanMeanings_length_eq_one_iff (word : Str) (meanings : List Meaning) :
    (scanMeanings word meanings).2.length = 1 ↔ captures meanings = [] := by
  rw [scanMeanings_forms]
  constructor
  · intro h
    cases hc : captures meanings with
    | nil => rfl
    | cons entry rest =>
      exfalso
      rw [hc, List.foldl_cons] at h
      have hmem : entry ∈ captures meanings := hc ▸ List.mem_cons_self _ _
      have hseed := get_seed_of_label word entry.1 (captures_spec meanings entry hmem).2
      have hw : writeOnce [("原形".toList, word)] entry =
          set [("原形".toList, word)] entry.1 entry.2 := by
        unfold writeOnce
        rw [hseed]
        rfl
      have h2 : (writeOnce [("原形".toList, word)] entry).length = 2 := by
        rw [hw, length_set_of_absent _ entry.1 entry.2 hseed]
        rfl
      have h3 := length_foldl_writeOnce_le rest (writeOnce [("原形".toList, word)] entry)
      rw [h2, h] at h3
      omega
  · intro h
    rw [h]
    rfl

theorem parseAPIResponse_of_no_match (word : Str) (meanings : List Meaning)
    (h : captures meanings = []) :
    parseAPIResponse word meanings =
      (inferFormsFromWord word (scanMeanings word meanings).1 [("原形".toList, word)]).bind
        fun allForms => some { type := (scanMeanings word meanings).1,
                               forms := set allForms "词性".toList (scanMeanings word meanings).1 } := by
  have hl := (scanMeanings_length_eq_one_iff word meanings).2 h
  have hf : (scanMeanings word meanings).2 = [("原形".toList, word)] := by
    rw [scanMeanings_forms, h]
    rfl
  unfold parseAPIResponse
  simp only [hl, if_true]
  rw [hf]

theorem parseAPIResponse_of_match (word : Str) (meanings : List Meaning)
    (h : captures meanings ≠ []) :
    parseAPIResponse word meanings =
      some { type := (scanMeanings word meanings).1,
             forms := set ((captures meanings).foldl writeOnce [("原形".toList, word)])
               "词性".toList (scanMeanings word meanings).1 } := by
  have hl : ¬ (scanMeanings word meanings).2.length = 1 :=
    fun hl => h ((scanMeanings_length_eq_one_iff word meanings).1 hl)
  unfold parseAPIResponse
  simp only [hl, if_false, Option.some_bind]
  rw [scanMeanings_forms]

/-- C5: gloss extraction takes precedence over spelling inference. When no pattern matched in
any sense, `parseAPIResponse` returns what the spelling fallback `inferFormsFromWord` makes of
the seed `{原形: word}` (plus the tag 词性). When at least one pattern matched, the fallback is
not applied: the result holds 原形 = word, 词性 = type, and under every other label exactly
what the matches captured (nothing for a label without a match), and every entry of the forms
is the seed, the tag or a captured (label, word) pair. -/
theorem gloss_extraction_precedence (word : Str) (meanings : List Meaning) :
    (captures meanings = [] →
      parseAPIResponse word meanings =
        (inferFormsFromWord word (scanMeanings word meanings).1 [("原形".toList, word)]).bind
          fun allForms => some { type := (scanMeanings word meanings).1,
                                 forms := set allForms "词性".toList
                                   (scanMeanings word meanings).1 }) ∧
    (captures meanings ≠ [] →
      ∃ r, parseAPIResponse word meanings = some r ∧
        r.type = (scanMeanings word meanings).1 ∧
        get r.forms "原形".toList = some word ∧
        get r.forms "词性".toList = some r.type ∧
        (∀ k, k ≠ "原形".toList → k ≠ "词性".toList →
          get r.forms k = get (captures meanings) k) ∧
        (∀ entry ∈ r.forms, entry = ("原形".toList, word) ∨ entry = ("词性".toList, r.type) ∨
          entry ∈ captures meanings)) := by
  refine ⟨parseAPIResponse_of_no_match word meanings, fun h => ?_⟩
  refine ⟨_, parseAPIResponse_of_match word meanings h, rfl, ?_, ?_, ?_, ?_⟩
  · show get (set _ _ _) _ = _
    rw [get_set_ne _ _ _ _ (by decide), get_foldl_writeOnce_of_absent]
    · simp [get]
    · intro entry he hk
      have := (captures_spec meanings entry he).2
      rw [hk] at this
      revert this
      decide
  · exact get_set_same _ _ _
  · intro k hk1 hk2
    show get (set _ _ _) _ = _
    rw [get_set_ne _ _ _ _ (Ne.symm hk2), get_foldl_writeOnce_first _ _ _
      (fun e he => (captures_spec meanings e he).1)]
    rw [get, if_neg (Ne.symm hk1), get]
  · intro entry he
    rcases mem_set _ _ _ _ he with h1 | h1
    · rcases mem_foldl_writeOnce _ _ _ h1 with h2 | h2
      · left
        simpa using h2
      · exact Or.inr (Or.inr h2)
    · exact Or.inr (Or.inl h1)

/-- Witness of `gloss_extraction_precedence`: for the word "ran" with the verb gloss
"past tense of run" the result has 过去式 = "run" and no 第三人称单数, 过去分词 or 现在分词; for
the word "cat" with a noun gloss that matches no pattern the result is that of the fallback. -/
theorem gloss_extraction_precedence_witness :
    (∃ r, parseAPIResponse "ran".toList [⟨"verb".toList, ["past tense of run".toList]⟩] = some r ∧
      get r.forms "原形".toList = some "ran".toList ∧
      get r.forms "过去式".toList = some "run".toList ∧
      get r.forms "第三人称单数".toList = none ∧
      get r.forms "过去分词".toList = none ∧
      get r.forms "现在分词".toList = none) ∧
    parseAPIResponse "cat".toList [⟨"noun".toList, ["a small animal".toList]⟩] =
      some ⟨"noun".toList, [("原形".toList, "cat".toList), ("单数".toList, "cat".toList),
        ("复数".toList, "cats".toList), ("词性".toList, "noun".toList)]⟩ := by
  constructor
  · obtain ⟨r, hr, -, h0, -, hk, -⟩ :=
      (gloss_extraction_precedence "ran".toList
        [⟨"verb".toList, ["past tense of run".toList]⟩]).2 (by decide)
    refine ⟨r, hr, h0, ?_, ?_, ?_, ?_⟩
    · rw [hk _ (by decide) (by decide)]
      decide
    · rw [hk _ (by decide) (by decide)]
      decide
    · rw [hk _ (by decide) (by decide)]
      decide
    · rw [hk _ (by decide) (by decide)]
      decide
  · rw [(gloss_extraction_precedence "cat".toList
      [⟨"noun".toList, ["a small animal".toList]⟩]).1 (by decide)]
    decide

theorem get_append_first (pre post : List (Str × Str)) (k v : Str)
    (h : ∀ entry ∈ pre, entry.1 ≠ k) : get (pre ++ (k, v) :: post) k = some v := by
  induction pre with
  | nil => simp [get]
  | cons p rest ih =>
    obtain ⟨k', v'⟩ := p
    have hk : k' ≠ k := h (k', v') (List.mem_cons_self _ _)
    rw [List.cons_append, get, if_neg hk]
    exact ih fun e he => h e (List.mem_cons_of_mem _ he)

/-- C6: first match wins in gloss extraction. Split the list of all matching
(sense, gloss, pattern) triples, taken in the order of senses, of glosses within a sense and
of patterns in the table, at the first triple for a label `k`: whatever matches come later
(`post`, for the same label or another, in the same gloss, another gloss or another sense),
`parseAPIResponse` returns and stores under `k` the word `v` captured by that first triple. -/
theorem first_match_wins (word : Str) (meanings : List Meaning) (pre post : List (Str × Str))
    (k v : Str) (hsplit : captures meanings = pre ++ (k, v) :: post)
    (hfirst : ∀ entry ∈ pre, entry.1 ≠ k) :
    ∃ r, parseAPIResponse word meanings = some r ∧ get r.forms k = some v := by
  have hne : captures meanings ≠ [] := by
    rw [hsplit]
    simp
  have hmem : (k, v) ∈ captures meanings := by
    rw [hsplit]
    simp
  have hlabel : k ∈ extractionLabels := (captures_spec meanings (k, v) hmem).2
  have hk : "词性".toList ≠ k := by
    intro h
    subst h
    revert hlabel
    decide
  refine ⟨_, parseAPIResponse_of_match word meanings hne, ?_⟩
  show get (set _ _ _) _ = _
  rw [get_set_ne _ _ _ _ hk, get_foldl_writeOnce_first _ _ _
    (fun e he => (captures_spec meanings e he).1) (get_seed_of_label word k hlabel), hsplit]
  exact get_append_first pre post k v hfirst

/-- Witness of `first_match_wins`: a noun sense with a plural gloss, then verb senses whose
glosses match 过去式 three times ("run", "go", "see"); the value stored is "run". -/
theorem first_match_wins_witness :
    ∃ r, parseAPIResponse "ran".toList
        [⟨"noun".toList, ["plural of ox".toList]⟩,
         ⟨"verb".toList, ["past tense of run".toList, "simple past of go".toList]⟩,
         ⟨"verb".toList, ["Past tense of see".toList]⟩] = some r ∧
      get r.forms "过去式".toList = some "run".toList :=
  first_match_wins "ran".toList _ [("复数".toList, "ox".toList)]
    [("过去式".toList, "go".toList), ("过去式".toList, "see".toList)]
    "过去式".toList "run".toList (by decide) (by decide)

/-! ### Part of speech -/

theorem stepMeaning_type_verb_iff (state : Str × Forms) (meaning : Meaning) :
    (stepMeaning state meaning).1 = "verb".toList ↔
      state.1 = "verb".toList ∨ meaning.partOfSpeech = "verb".toList := by
  unfold stepMeaning
  split
  · simp_all
  · split
    · by_cases hs : state.1 = "verb".toList <;> simp_all
    · split
      · by_cases hs : state.1 = "noun".toList <;> simp_all
      · split
        · by_cases hs : state.1 = "noun".toList <;> simp_all
        · simp_all

theorem foldl_stepMeaning_type_verb_iff (meanings : List Meaning) (state : Str × Forms) :
    (meanings.foldl stepMeaning state).1 = "verb".toList ↔
      state.1 = "verb".toList ∨ ∃ m ∈ meanings, m.partOfSpeech = "verb".toList := by
  induction meanings generalizing state with
  | nil => simp
  | cons meaning rest ih =>
    rw [List.foldl_cons, ih, stepMeaning_type_verb_iff]
    simp only [List.mem_cons, exists_eq_or_imp]
    tauto

theorem foldl_stepMeaning_type_noun (meanings : List Meaning) (state : Str × Forms)
    (hs : state.1 = "noun".toList)
    (h : ∀ m ∈ meanings, m.partOfSpeech ≠ "verb".toList ∧
      m.partOfSpeech ≠ "adjective".toList ∧ m.partOfSpeech ≠ "adverb".toList) :
    (meanings.foldl stepMeaning state).1 = "noun".toList := by
  induction meanings generalizing state with
  | nil => exact hs
  | cons meaning rest ih =>
    rw [List.foldl_cons]
    apply ih _ _ fun m hm => h m (List.mem_cons_of_mem _ hm)
    obtain ⟨h1, h2, h3⟩ := h meaning (List.mem_cons_self _ _)
    unfold stepMeaning
    rw [if_neg h1, if_neg h2, if_neg h3]
    split
    · rw [hs]
      rfl
    · exact hs

theorem parseAPIResponse_type_eq (word : Str) (meanings : List Meaning) (r : ParsedData)
    (h : parseAPIResponse word meanings = some r) : r.type = (scanMeanings word meanings).1 := by
  unfold parseAPIResponse at h
  simp only [Option.bind_eq_some] at h
  obtain ⟨allForms, -, h⟩ := h
  cases h
  rfl

theorem inferVerbForms_returns (w : Str) (allForms : Forms) (h1 : w ≠ "y".toList)
    (h2 : w ≠ "ying".toList) (h3 : w ≠ "yed".toList) :
    ∃ f, inferVerbForms w allForms = some f := by
  cases hing : endsWith w "ing".toList with
  | true =>
    obtain ⟨f, hf, -⟩ := (inferVerbForms_records_surface w allForms).1 hing h2
    exact ⟨f, hf⟩
  | false =>
    cases hed : endsWith w "ed".toList with
    | true =>
      obtain ⟨f, hf, -⟩ := (inferVerbForms_records_surface w allForms).2 hing hed h3
      exact ⟨f, hf⟩
    | false =>
      obtain ⟨third, ht⟩ := Option.ne_none_iff_exists'.1
        (mt (getThirdPersonSingular_eq_none_iff w).1 h1)
      obtain ⟨past, hp⟩ := Option.ne_none_iff_exists'.1 (mt (getPastTense_eq_none_iff w).1 h1)
      exact ⟨_, inferVerbForms_plain_eq w third past allForms hing hed ht hp⟩

theorem inferNounForms_returns (w : Str) (allForms : Forms) (h1 : w ≠ "y".toList) :
    ∃ f, inferNounForms w allForms = some f := by
  obtain ⟨plural, hp⟩ := Option.ne_none_iff_exists'.1 (mt (getPluralForm_eq_none_iff w).1 h1)
  unfold inferNounForms
  rw [hp]
  split
  · split
    · exact ⟨_, rfl⟩
    · split
      · exact ⟨_, rfl⟩
      · split
        · exact ⟨_, rfl⟩
        · split <;> exact ⟨_, rfl⟩
  · exact ⟨_, rfl⟩

theorem inferFormsFromWord_returns (w wordType : Str) (allForms : Forms) (h1 : w ≠ "y".toList)
    (h2 : w ≠ "ying".toList) (h3 : w ≠ "yed".toList) :
    ∃ f, inferFormsFromWord w wordType allForms = some f := by
  unfold inferFormsFromWord
  split
  · exact inferVerbForms_returns w allForms h1 h2 h3
  · split
    · exact inferNounForms_returns w allForms h1
    · split <;> exact ⟨_, rfl⟩

theorem parseAPIResponse_returns (word : Str) (meanings : List Meaning) (h1 : word ≠ "y".toList)
    (h2 : word ≠ "ying".toList) (h3 : word ≠ "yed".toList) :
    ∃ r, parseAPIResponse word meanings = some r := by
  unfold parseAPIResponse
  simp only
  split
  · obtain ⟨f, hf⟩ := inferFormsFromWord_returns word (scanMeanings word meanings).1
      (scanMeanings word meanings).2 h1 h2 h3
    rw [hf]
    exact ⟨_, rfl⟩
  · exact ⟨_, rfl⟩

/-- C7: part-of-speech selection. `parseAPIResponse` returns for every word other than "y",
"ying" and "yed", and whenever it returns, the type is 'verb' if and only if at least one sense
is tagged 'verb' (wherever it stands in the list), and the type is 'noun' when no sense is
tagged verb, adjective or adverb (the empty list included). -/
theorem part_of_speech_selection (word : Str) (meanings : List Meaning) :
    (word ≠ "y".toList → word ≠ "ying".toList → word ≠ "yed".toList →
      ∃ r, parseAPIResponse word meanings = some r) ∧
    ∀ r, parseAPIResponse word meanings = some r →
      (r.type = "verb".toList ↔ ∃ m ∈ meanings, m.partOfSpeech = "verb".toList) ∧
      ((∀ m ∈ meanings, m.partOfSpeech ≠ "verb".toList ∧
          m.partOfSpeech ≠ "adjective".toList ∧ m.partOfSpeech ≠ "adverb".toList) →
        r.type = "noun".toList) := by
  refine ⟨parseAPIResponse_returns word meanings, fun r hr => ?_⟩
  rw [parseAPIResponse_type_eq word meanings r hr]
  constructor
  · unfold scanMeanings
    rw [foldl_stepMeaning_type_verb_iff]
    constructor
    · rintro (h | h)
      · exact absurd h (show "noun".toList ≠ "verb".toList by decide)
      · exact h
    · exact Or.inr
  · intro h
    exact foldl_stepMeaning_type_noun meanings _ rfl h

/-- Witness of `part_of_speech_selection`: an adjective, a verb and a noun sense give the type
'verb'; a single tag outside the four gives 'noun'. -/
theorem part_of_speech_selection_witness :
    (∃ r, parseAPIResponse "light".toList
        [⟨"adjective".toList, []⟩, ⟨"verb".toList, []⟩, ⟨"noun".toList, []⟩] = some r ∧
      r.type = "verb".toList) ∧
    (∃ r, parseAPIResponse "oh".toList [⟨"interjection".toList, []⟩] = some r ∧
      r.type = "noun".toList) := by
  constructor
  · obtain ⟨r, hr⟩ := (part_of_speech_selection "light".toList
      [⟨"adjective".toList, []⟩, ⟨"verb".toList, []⟩, ⟨"noun".toList, []⟩]).1
      (by decide) (by decide) (by decide)
    exact ⟨r, hr, ((part_of_speech_selection _ _).2 r hr).1.2
      ⟨⟨"verb".toList, []⟩, by decide, rfl⟩⟩
  · obtain ⟨r, hr⟩ := (part_of_speech_selection "oh".toList
      [⟨"interjection".toList, []⟩]).1 (by decide) (by decide) (by decide)
    exact ⟨r, hr, ((part_of_speech_selection _ _).2 r hr).2 (by decide)⟩

/-! ### Where the engine breaks its contract -/

/-- C1: `parseAPIResponse` throws on the word "y". With no sense, or with a noun sense whose
gloss matches no pattern, the type is 'noun', `inferNounForms` calls `getPluralForm("y")`,
which reads `noun[-1]` (undefined) and passes it to `isConsonant`, where
`undefined.toLowerCase()` raises a TypeError; the same happens with a verb sense in
`getThirdPersonSingular("y")`. -/
theorem parseAPIResponse_throws_on_y :
    getPluralForm "y".toList = none ∧
    getThirdPersonSingular "y".toList = none ∧
    getPastTense "y".toList = none ∧
    parseAPIResponse "y".toList [] = none ∧
    parseAPIResponse "y".toList [⟨"noun".toList, ["the letter y".toList]⟩] = none ∧
    parseAPIResponse "y".toList [⟨"verb".toList, ["to say y".toList]⟩] = none := by
  decide

/-! ### Empty form values -/

theorem set_nonEmpty (f : Forms) (k v : Str) (hf : ∀ entry ∈ f, entry.2 ≠ []) (hv : v ≠ []) :
    ∀ entry ∈ set f k v, entry.2 ≠ [] := by
  intro entry he
  rcases mem_set f k v entry he with h | h
  · exact hf entry h
  · rw [h]
    exact hv

theorem getThirdPersonSingular_ne_nil (v third : Str)
    (h : getThirdPersonSingular v = some third) : third ≠ [] := by
  unfold getThirdPersonSingular at h
  split at h
  · cases h
    simp
  · rw [Option.bind_eq_some] at h
    obtain ⟨c, -, h⟩ := h
    split at h <;> cases h <;> simp

theorem getPastTense_ne_nil (v past : Str) (h : getPastTense v = some past) : past ≠ [] := by
  unfold getPastTense at h
  split at h
  · cases h
    simp
  · rw [Option.bind_eq_some] at h
    obtain ⟨c, -, h⟩ := h
    split at h
    · cases h
      simp
    · split at h <;> cases h <;> simp

theorem getPluralForm_ne_nil (n plural : Str) (h : getPluralForm n = some plural) :
    plural ≠ [] := by
  unfold getPluralForm at h
  split at h
  · cases h
    simp
  · rw [Option.bind_eq_some] at h
    obtain ⟨c, -, h⟩ := h
    split at h
    · cases h
      simp
    · split at h
      · cases h
        simp
      · split at h <;> cases h <;> simp

theorem getPresentParticiple_ne_nil (v : Str) : getPresentParticiple v ≠ [] := by
  unfold getPresentParticiple
  split
  · simp
  · split
    · simp
    · split <;> simp

theorem slice_ne_nil (w suffix : Str) (h : endsWith w suffix = true) (hne : w ≠ suffix) :
    slice w suffix.length ≠ [] := by
  intro hs
  have := eq_slice_append w suffix h
  rw [hs] at this
  exact hne this

theorem undoDoubling_ne_nil (stem base : Str) (h : undoDoubling stem = some base)
    (hs : stem ≠ []) : base ≠ [] := by
  rcases undoDoubling_total stem with h1 | ⟨hlen, h1⟩
  · rw [h1] at h
    cases h
    exact hs
  · rw [h1] at h
    cases h
    intro hnil
    have := congrArg List.length hnil
    simp [slice] at this
    omega

theorem inferVerbForms_nonEmpty (w : Str) (allForms f : Forms) (hw : w ≠ [])
    (h1 : w ≠ "ing".toList) (h2 : w ≠ "ed".toList)
    (hf : ∀ entry ∈ allForms, entry.2 ≠ []) (h : inferVerbForms w allForms = some f) :
    ∀ entry ∈ f, entry.2 ≠ [] := by
  unfold inferVerbForms at h
  split at h
  · rename_i hing
    simp only [Option.bind_eq_some, getPastParticiple] at h
    obtain ⟨base, hb, third, h3, past, hp, part, hpp, h⟩ := h
    cases h
    have hbase : base ≠ [] := undoDoubling_ne_nil _ _ hb (slice_ne_nil w "ing".toList hing h1)
    exact set_nonEmpty _ _ _ (set_nonEmpty _ _ _ (set_nonEmpty _ _ _ (set_nonEmpty _ _ _
      (set_nonEmpty _ _ _ hf hbase) hw) (getThirdPersonSingular_ne_nil _ _ h3))
      (getPastTense_ne_nil _ _ hp)) (getPastTense_ne_nil _ _ hpp)
  · split at h
    · rename_i hed
      simp only [Option.bind_eq_some] at h
      obtain ⟨base, hb, third, h3, h⟩ := h
      cases h
      have hbase : base ≠ [] := undoDoubling_ne_nil _ _ hb (slice_ne_nil w "ed".toList hed h2)
      exact set_nonEmpty _ _ _ (set_nonEmpty _ _ _ (set_nonEmpty _ _ _ (set_nonEmpty _ _ _
        (set_nonEmpty _ _ _ hf hbase) hw) hw) (getThirdPersonSingular_ne_nil _ _ h3))
        (getPresentParticiple_ne_nil _)
    · simp only [Option.bind_eq_some, getPastParticiple] at h
      obtain ⟨third, h3, past, hp, part, hpp, h⟩ := h
      cases h
      exact set_nonEmpty _ _ _ (set_nonEmpty _ _ _ (set_nonEmpty _ _ _ (set_nonEmpty _ _ _
        (set_nonEmpty _ _ _ hf hw) (getThirdPersonSingular_ne_nil _ _ h3))
        (getPastTense_ne_nil _ _ hp)) (getPastTense_ne_nil _ _ hpp))
        (getPresentParticiple_ne_nil _)

theorem slice_ne_nil_of_length (w : Str) (k : Nat) (h : k < w.length) : slice w k ≠ [] := by
  intro hnil
  have := congrArg List.length hnil
  simp [slice] at this
  omega

theorem inferNounForms_nonEmpty (w : Str) (allForms f : Forms) (hw : w ≠ [])
    (hf : ∀ entry ∈ allForms, entry.2 ≠ []) (h : inferNounForms w allForms = some f) :
    ∀ entry ∈ f, entry.2 ≠ [] := by
  unfold inferNounForms at h
  split at h
  · rename_i hc
    have hlen : 3 < w.length := by
      simp only [Bool.and_eq_true, decide_eq_true_eq] at hc
      exact hc.2
    split at h
    · cases h
      exact set_nonEmpty _ _ _ (set_nonEmpty _ _ _ hf (by simp)) hw
    · split at h
      · cases h
        exact set_nonEmpty _ _ _ (set_nonEmpty _ _ _ hf (by simp)) hw
      · split at h
        · cases h
          exact set_nonEmpty _ _ _
            (set_nonEmpty _ _ _ hf (slice_ne_nil_of_length w 2 (by omega))) hw
        · split at h
          · cases h
            exact set_nonEmpty _ _ _
              (set_nonEmpty _ _ _ hf (slice_ne_nil_of_length w 2 (by omega))) hw
          · cases h
            exact set_nonEmpty _ _ _
              (set_nonEmpty _ _ _ hf (slice_ne_nil_of_length w 1 (by omega))) hw
  · simp only [Option.bind_eq_some] at h
    obtain ⟨plural, hp, h⟩ := h
    cases h
    exact set_nonEmpty _ _ _ (set_nonEmpty _ _ _ hf hw) (getPluralForm_ne_nil _ _ hp)

theorem inferAdjectiveForms_nonEmpty (w : Str) (allForms : Forms) (hw : w ≠ [])
    (h1 : w ≠ "er".toList) (h2 : w ≠ "est".toList)
    (hf : ∀ entry ∈ allForms, entry.2 ≠ []) :
    ∀ entry ∈ inferAdjectiveForms w allForms, entry.2 ≠ [] := by
  unfold inferAdjectiveForms
  split
  · rename_i her
    exact set_nonEmpty _ _ _ (set_nonEmpty _ _ _ (set_nonEmpty _ _ _ hf
      (slice_ne_nil w "er".toList her h1)) hw) (by simp)
  · split
    · rename_i hest
      exact set_nonEmpty _ _ _ (set_nonEmpty _ _ _ (set_nonEmpty _ _ _ hf
        (slice_ne_nil w "est".toList hest h2)) (by simp)) hw
    · exact set_nonEmpty _ _ _ (set_nonEmpty _ _ _ (set_nonEmpty _ _ _ hf hw) (by simp))
        (by simp)

theorem foldl_stepMeaning_type_ne_nil (meanings : List Meaning) (state : Str × Forms)
    (hs : state.1 ≠ []) : (meanings.foldl stepMeaning state).1 ≠ [] := by
  induction meanings generalizing state with
  | nil => exact hs
  | cons meaning rest ih =>
    rw [List.foldl_cons]
    apply ih
    unfold stepMeaning
    split
    · exact (show "verb".toList ≠ [] by decide)
    · split
      · split
        · exact (show "noun".toList ≠ [] by decide)
        · exact hs
      · split
        · split
          · exact (show "adjective".toList ≠ [] by decide)
          · exact hs
        · split
          · split
            · exact (show "adverb".toList ≠ [] by decide)
            · exact hs
          · exact hs

/-- Outside the four words that consist of a stripped suffix alone, no form value is empty: for
every non-empty word other than "ing", "ed", "er" and "est" and every list of senses, every
entry of the forms that `parseAPIResponse` returns has a non-empty value. -/
theorem form_values_nonEmpty (word : Str) (meanings : List Meaning) (r : ParsedData)
    (hw : word ≠ []) (h1 : word ≠ "ing".toList) (h2 : word ≠ "ed".toList)
    (h3 : word ≠ "er".toList) (h4 : word ≠ "est".toList)
    (hr : parseAPIResponse word meanings = some r) :
    ∀ entry ∈ r.forms, entry.2 ≠ [] := by
  have hscan : ∀ entry ∈ (scanMeanings word meanings).2, entry.2 ≠ [] := by
    rw [scanMeanings_forms]
    intro entry he
    rcases mem_foldl_writeOnce _ _ _ he with h | h
    · have : entry = ("原形".toList, word) := by simpa using h
      rw [this]
      exact hw
    · exact (captures_spec meanings entry h).1
  have htype : (scanMeanings word meanings).1 ≠ [] :=
    foldl_stepMeaning_type_ne_nil meanings _ (show "noun".toList ≠ [] by decide)
  unfold parseAPIResponse at hr
  simp only [Option.bind_eq_some] at hr
  obtain ⟨allForms, ha, hr⟩ := hr
  cases hr
  apply set_nonEmpty _ _ _ _ htype
  split at ha
  · unfold inferFormsFromWord at ha
    split at ha
    · exact inferVerbForms_nonEmpty word _ _ hw h1 h2 hscan ha
    · split at ha
      · exact inferNounForms_nonEmpty word _ _ hw hscan ha
      · split at ha
        · cases ha
          exact inferAdjectiveForms_nonEmpty word _ hw h3 h4 hscan
        · cases ha
          exact hscan
  · cases ha
    exact hscan

/-- C2: `parseAPIResponse` returns forms with an empty value. For the word "ing" (or "ed") with
a verb sense and no matching gloss, `inferVerbForms` strips the suffix and records 原形 = "";
for the word "er" (or "est") with an adjective sense, `inferAdjectiveForms` records
原级 = "". -/
theorem parseAPIResponse_empty_form_value :
    parseAPIResponse "ing".toList [⟨"verb".toList, []⟩] =
      some ⟨"verb".toList, [("原形".toList, []), ("现在分词".toList, "ing".toList),
        ("第三人称单数".toList, "s".toList), ("过去式".toList, "ed".toList),
        ("过去分词".toList, "ed".toList), ("词性".toList, "verb".toList)]⟩ ∧
    parseAPIResponse "ed".toList [⟨"verb".toList, []⟩] =
      some ⟨"verb".toList, [("原形".toList, []), ("过去式".toList, "ed".toList),
        ("过去分词".toList, "ed".toList), ("第三人称单数".toList, "s".toList),
        ("现在分词".toList, "ing".toList), ("词性".toList, "verb".toList)]⟩ ∧
    parseAPIResponse "er".toList [⟨"adjective".toList, []⟩] =
      some ⟨"adjective".toList, [("原形".toList, "er".toList), ("原级".toList, []),
        ("比较级".toList, "er".toList), ("最高级".toList, "est".toList),
        ("词性".toList, "adjective".toList)]⟩ ∧
    parseAPIResponse "est".toList [⟨"adjective".toList, []⟩] =
      some ⟨"adjective".toList, [("原形".toList, "est".toList), ("原级".toList, []),
        ("比较级".toList, "er".toList), ("最高级".toList, "est".toList),
        ("词性".toList, "adjective".toList)]⟩ := by
  decide

/-! ## The branches of the noun and adjective fallback -/

/-- A word that ends in `a` also ends in every suffix of `a`. -/
theorem endsWith_of_suffix (w a b : Str) (ha : endsWith w a = true) (hba : b <:+ a) :
    endsWith w b = true :=
  (endsWith_iff _ _).2 (List.IsSuffix.trans hba ((endsWith_iff _ _).1 ha))

/-- A word that ends in `a` does not end in `b` when neither is a suffix of the other. -/
theorem not_endsWith_of_endsWith (w a b : Str) (ha : endsWith w a = true) (hab : ¬ a <:+ b)
    (hba : ¬ b <:+ a) : endsWith w b = false := by
  rw [endsWith_false_iff]
  intro hb
  rcases List.suffix_or_suffix_of_suffix ((endsWith_iff _ _).1 ha) hb with h | h
  · exact hab h
  · exact hba h

/-- C11: the sibilant plural branch. For every word longer than 3 characters that ends in
"ches", "shes", "xes" or "zes", `inferNounForms` returns and records 单数 = the word without
its final "es" and 复数 = the word. -/
theorem inferNounForms_sibilant (w : Str) (allForms : Forms) (hlen : 3 < w.length)
    (h : endsWith w "ches".toList = true ∨ endsWith w "shes".toList = true ∨
      endsWith w "xes".toList = true ∨ endsWith w "zes".toList = true) :
    ∃ f stem, inferNounForms w allForms = some f ∧ w = stem ++ "es".toList ∧
      get f "单数".toList = some stem ∧ get f "复数".toList = some w := by
  have hes : endsWith w "es".toList = true := by
    rcases h with h | h | h | h
    · exact endsWith_of_suffix w _ _ h (by decide)
    · exact endsWith_of_suffix w _ _ h (by decide)
    · exact endsWith_of_suffix w _ _ h (by decide)
    · exact endsWith_of_suffix w _ _ h (by decide)
  have hs : endsWith w "s".toList = true := endsWith_of_suffix w _ _ hes (by decide)
  have hies : endsWith w "ies".toList = false := by
    rcases h with h | h | h | h
    · exact not_endsWith_of_endsWith w _ _ h (by decide) (by decide)
    · exact not_endsWith_of_endsWith w _ _ h (by decide) (by decide)
    · exact not_endsWith_of_endsWith w _ _ h (by decide) (by decide)
    · exact not_endsWith_of_endsWith w _ _ h (by decide) (by decide)
  have hves : endsWith w "ves".toList = false := by
    rcases h with h | h | h | h
    · exact not_endsWith_of_endsWith w _ _ h (by decide) (by decide)
    · exact not_endsWith_of_endsWith w _ _ h (by decide) (by decide)
    · exact not_endsWith_of_endsWith w _ _ h (by decide) (by decide)
    · exact not_endsWith_of_endsWith w _ _ h (by decide) (by decide)
  have hsib : (endsWith w "ches".toList || endsWith w "shes".toList ||
      endsWith w "xes".toList || endsWith w "zes".toList) = true := by
    rcases h with h | h | h | h <;> rw [h] <;> simp
  have heq : inferNounForms w allForms =
      some (set (set allForms "单数".toList (slice w 2)) "复数".toList w) := by
    unfold inferNounForms
    rw [hs, decide_eq_true hlen, hies, hves, hsib]
    rfl
  refine ⟨_, slice w 2, heq, eq_slice_append w "es".toList hes, ?_, ?_⟩
  · rw [get_set_ne _ _ _ _ (by decide), get_set_same]
  · rw [get_set_same]

/-- Witness of `inferNounForms_sibilant` at "boxes": 单数 "box", 复数 "boxes". -/
theorem inferNounForms_sibilant_witness :
    ∃ f stem, inferNounForms "boxes".toList [] = some f ∧
      "boxes".toList = stem ++ "es".toList ∧
      get f "单数".toList = some stem ∧ get f "复数".toList = some "boxes".toList :=
  inferNounForms_sibilant "boxes".toList [] (by decide) (Or.inr (Or.inr (Or.inl (by decide))))

/-- C12: the comparative adjective branch. For every word `w` ending in "er",
`inferAdjectiveForms` records 原级 = `w` without its last 2 characters, 比较级 = `w` and
最高级 = that base plus "est". -/
theorem inferAdjectiveForms_comparative (w : Str) (allForms : Forms)
    (h : endsWith w "er".toList = true) :
    ∃ base, w = base ++ "er".toList ∧
      get (inferAdjectiveForms w allForms) "原级".toList = some base ∧
      get (inferAdjectiveForms w allForms) "比较级".toList = some w ∧
      get (inferAdjectiveForms w allForms) "最高级".toList = some (base ++ "est".toList) := by
  refine ⟨slice w 2, eq_slice_append w "er".toList h, ?_, ?_, ?_⟩
  · unfold inferAdjectiveForms
    rw [h, if_pos rfl, get_set_ne _ _ _ _ (by decide), get_set_ne _ _ _ _ (by decide),
      get_set_same]
  · unfold inferAdjectiveForms
    rw [h, if_pos rfl, get_set_ne _ _ _ _ (by decide), get_set_same]
  · unfold inferAdjectiveForms
    rw [h, if_pos rfl, get_set_same]

/-- Witness of `inferAdjectiveForms_comparative` at "faster": 原级 "fast", 比较级 "faster",
最高级 "fastest". -/
theorem inferAdjectiveForms_comparative_witness :
    ∃ base, "faster".toList = base ++ "er".toList ∧
      get (inferAdjectiveForms "faster".toList []) "原级".toList = some base ∧
      get (inferAdjectiveForms "faster".toList []) "比较级".toList = some "faster".toList ∧
      get (inferAdjectiveForms "faster".toList []) "最高级".toList =
        some (base ++ "est".toList) :=
  inferAdjectiveForms_comparative "faster".toList [] (by decide)

/-! ## The derivation helpers against the rules of the specification -/

/-- The character that the helpers read at index `length - 2` is the last character of the
word without its last character; both are absent for words shorter than 2. -/
theorem charAt_penultimate (v : Str) :
    charAt v ((v.length : Int) - 2) = v.dropLast.getLast? := by
  rw [List.getLast?_eq_getElem?, List.getElem?_dropLast, List.length_dropLast]
  unfold charAt
  by_cases h : 2 ≤ v.length
  · rw [if_neg (by omega), if_pos (by omega)]
    congr 1
    omega
  · rw [if_pos (by omega), if_neg (by omega)]

theorem slice_one (v : Str) : slice v 1 = v.dropLast := by
  rw [List.dropLast_eq_take]
  rfl

/-- On a lowercase word other than "y" the guard
`verb.endsWith('y') && this.isConsonant(verb[verb.length-2])` returns whether the word ends in
a consonant followed by y. -/
theorem endsY_consonant_eq (v : Str) (hlow : ∀ c ∈ v, c.isLower = true) (hy : v ≠ "y".toList) :
    andThen (some (endsWith v "y".toList)) (isConsonant (charAt v ((v.length : Int) - 2))) =
      some (endsInConsonantY v) := by
  unfold endsInConsonantY
  cases he : endsWith v "y".toList with
  | false => rfl
  | true =>
    rw [charAt_penultimate]
    cases hl : v.dropLast.getLast? with
    | none =>
      exfalso
      have h0 := (endsY_consonant_eq_none_iff v).1 (by
        rw [he, charAt_penultimate, hl]
        rfl)
      exact hy h0
    | some c =>
      have hc : c.isLower = true :=
        hlow c (List.dropLast_subset v (List.mem_of_getLast?_eq_some hl))
      simp only [andThen, Option.some_bind, if_true, isConsonant, Option.map_some',
        toLower_of_isLower c hc, specConsonant, Bool.true_and]

/-- C13: `getThirdPersonSingular` equals the rule of the specification. For every lowercase
word `v` other than the one-letter word "y" it returns `v + "es"` if `v` ends in s, sh, ch, x
or z; otherwise `v` without its final y plus "ies" if `v` ends in a consonant followed by y;
otherwise `v + "s"`. -/
theorem getThirdPersonSingular_eq_spec (v : Str) (hlow : ∀ c ∈ v, c.isLower = true)
    (hy : v ≠ "y".toList) : getThirdPersonSingular v = some (specThirdPersonSingular v) := by
  unfold getThirdPersonSingular specThirdPersonSingular
  rw [endsY_consonant_eq v hlow hy, slice_one]
  split
  · rfl
  · cases endsInConsonantY v <;> rfl

/-- Witness of `getThirdPersonSingular_eq_spec` at "carry": the rule gives "carries". -/
theorem getThirdPersonSingular_eq_spec_witness :
    getThirdPersonSingular "carry".toList = some (specThirdPersonSingular "carry".toList) :=
  getThirdPersonSingular_eq_spec "carry".toList (by decide) (by decide)

/-- C14: `getPastTense` equals the rule of the specification and `getPastParticiple` is
identical to it. For every lowercase word `v` other than the one-letter word "y",
`getPastParticiple(v) = getPastTense(v)`, and that value is `v + "d"` if `v` ends in e;
otherwise `v` without its final y plus "ied" if `v` ends in a consonant followed by y;
otherwise `v + "ked"` if `v` ends in c; otherwise `v + "ed"`. -/
theorem getPastTense_eq_spec (v : Str) (hlow : ∀ c ∈ v, c.isLower = true)
    (hy : v ≠ "y".toList) :
    getPastParticiple v = getPastTense v ∧ getPastTense v = some (specPastTense v) := by
  refine ⟨rfl, ?_⟩
  unfold getPastTense specPastTense
  rw [endsY_consonant_eq v hlow hy, slice_one]
  split
  · rfl
  · cases endsInConsonantY v
    · simp only [Option.some_bind, Bool.false_eq_true, if_false]
      split <;> rfl
    · rfl

/-- Witness of `getPastTense_eq_spec` at "panic": the rule gives "panicked". -/
theorem getPastTense_eq_spec_witness :
    getPastParticiple "panic".toList = getPastTense "panic".toList ∧
    getPastTense "panic".toList = some (specPastTense "panic".toList) :=
  getPastTense_eq_spec "panic".toList (by decide) (by decide)

/-- C15: `getPresentParticiple` equals the rule of the specification. For every word `v` the
result is `v` without its final e plus "ing" if `v` ends in e; otherwise `v + "king"` if `v`
ends in c; otherwise `v + "ing"`; the separate case of a final y gives the same `v + "ing"`
as the default case, a word in y not ending in c. -/
theorem getPresentParticiple_eq_spec (v : Str) :
    getPresentParticiple v = specPresentParticiple v ∧
    (endsWith v "y".toList = true → getPresentParticiple v = v ++ "ing".toList) := by
  have hyc : endsWith v "y".toList = true → endsWith v "c".toList = false := fun h =>
    not_endsWith_of_endsWith v _ _ h (by decide) (by decide)
  have hye : endsWith v "y".toList = true → endsWith v "e".toList = false := fun h =>
    not_endsWith_of_endsWith v _ _ h (by decide) (by decide)
  constructor
  · unfold getPresentParticiple specPresentParticiple
    rw [slice_one]
    split
    · rfl
    · split
      · rename_i h
        rw [hyc h]
        rfl
      · rfl
  · intro h
    unfold getPresentParticiple
    rw [hye h, h]
    rfl

/-- Witness of `getPresentParticiple_eq_spec`: "make" gives "making", "panic" gives
"panicking" and "carry", which ends in y, gives "carrying". -/
theorem getPresentParticiple_eq_spec_witness :
    getPresentParticiple "make".toList = "making".toList ∧
    getPresentParticiple "panic".toList = "panicking".toList ∧
    getPresentParticiple "carry".toList = "carry".toList ++ "ing".toList :=
  ⟨(getPresentParticiple_eq_spec "make".toList).1, (getPresentParticiple_eq_spec "panic".toList).1,
    (getPresentParticiple_eq_spec "carry".toList).2 (by decide)⟩

/-- C16: `getPluralForm` mirrors `getThirdPersonSingular` except on the endings f and fe. For
every noun `n` other than "y" that ends in neither "f" nor "fe" the two return the same
value; for every `n` ending in "f" the plural is `n` without the f plus "ves"; for every `n`
ending in "fe" it is `n` without the fe plus "ves". -/
theorem getPluralForm_mirrors (n : Str) :
    (n ≠ "y".toList → endsWith n "f".toList = false → endsWith n "fe".toList = false →
      ∃ r, getPluralForm n = some r ∧ getThirdPersonSingular n = some r) ∧
    (endsWith n "f".toList = true →
      ∃ stem, n = stem ++ "f".toList ∧ getPluralForm n = some (stem ++ "ves".toList)) ∧
    (endsWith n "fe".toList = true →
      ∃ stem, n = stem ++ "fe".toList ∧ getPluralForm n = some (stem ++ "ves".toList)) := by
  refine ⟨fun hy hf hfe => ?_, fun hf => ?_, fun hfe => ?_⟩
  · unfold getPluralForm getThirdPersonSingular
    split
    · exact ⟨_, rfl, rfl⟩
    · cases hb : andThen (some (endsWith n "y".toList))
          (isConsonant (charAt n ((n.length : Int) - 2))) with
      | none => exact absurd ((endsY_consonant_eq_none_iff n).1 hb) hy
      | some c =>
        cases c
        · rw [hf, hfe]
          exact ⟨_, rfl, rfl⟩
        · exact ⟨_, rfl, rfl⟩
  · refine ⟨slice n 1, eq_slice_append n "f".toList hf, ?_⟩
    unfold getPluralForm
    rw [not_endsWith_of_endsWith n _ "s".toList hf (by decide) (by decide),
      not_endsWith_of_endsWith n _ "sh".toList hf (by decide) (by decide),
      not_endsWith_of_endsWith n _ "ch".toList hf (by decide) (by decide),
      not_endsWith_of_endsWith n _ "x".toList hf (by decide) (by decide),
      not_endsWith_of_endsWith n _ "z".toList hf (by decide) (by decide),
      not_endsWith_of_endsWith n _ "y".toList hf (by decide) (by decide), hf]
    rfl
  · refine ⟨slice n 2, eq_slice_append n "fe".toList hfe, ?_⟩
    unfold getPluralForm
    rw [not_endsWith_of_endsWith n _ "s".toList hfe (by decide) (by decide),
      not_endsWith_of_endsWith n _ "sh".toList hfe (by decide) (by decide),
      not_endsWith_of_endsWith n _ "ch".toList hfe (by decide) (by decide),
      not_endsWith_of_endsWith n _ "x".toList hfe (by decide) (by decide),
      not_endsWith_of_endsWith n _ "z".toList hfe (by decide) (by decide),
      not_endsWith_of_endsWith n _ "y".toList hfe (by decide) (by decide),
      not_endsWith_of_endsWith n _ "f".toList hfe (by decide) (by decide), hfe]
    rfl

/-- Witness of `getPluralForm_mirrors`: "city" gives "cities" from both helpers, "leaf" gives
"leaves" and "knife" gives "knives". -/
theorem getPluralForm_mirrors_witness :
    (∃ r, getPluralForm "city".toList = some r ∧ getThirdPersonSingular "city".toList = some r) ∧
    (∃ stem, "leaf".toList = stem ++ "f".toList ∧
      getPluralForm "leaf".toList = some (stem ++ "ves".toList)) ∧
    (∃ stem, "knife".toList = stem ++ "fe".toList ∧
      getPluralForm "knife".toList = some (stem ++ "ves".toList)) :=
  ⟨(getPluralForm_mirrors "city".toList).1 (by decide) (by decide) (by decide),
    (getPluralForm_mirrors "leaf".toList).2.1 (by decide),
    (getPluralForm_mirrors "knife".toList).2.2 (by decide)⟩

/-- C17: adverbs have no spelling fallback. For every word and list of senses for which the
selected type is 'adverb' and no gloss pattern matched, `parseAPIResponse` returns forms
with exactly two entries: the base form 原形 = word and the tag 词性 = 'adverb'. -/
theorem adverb_no_fallback (word : Str) (meanings : List Meaning)
    (hno : captures meanings = [])
    (hty : (scanMeanings word meanings).1 = "adverb".toList) :
    parseAPIResponse word meanings =
      some ⟨"adverb".toList, [("原形".toList, word), ("词性".toList, "adverb".toList)]⟩ := by
  rw [parseAPIResponse_of_no_match word meanings hno, hty]
  unfold inferFormsFromWord
  rw [if_neg (by decide), if_neg (by decide), if_neg (by decide)]
  rfl

/-- Witness of `adverb_no_fallback`: the word "quickly" with one adverb sense whose gloss
matches no pattern. -/
theorem adverb_no_fallback_witness :
    parseAPIResponse "quickly".toList [⟨"adverb".toList, ["in a quick manner".toList]⟩] =
      some ⟨"adverb".toList,
        [("原形".toList, "quickly".toList), ("词性".toList, "adverb".toList)]⟩ :=
  adverb_no_fallback "quickly".toList [⟨"adverb".toList, ["in a quick manner".toList]⟩]
    (by decide) (by decide)

/-- What the doubling check does on a stem of at least three characters `p + a + b + c`: it
drops `c` exactly when `c` and `b` are consonants and `a` is not; whether `b` and `c` are the
same letter plays no part. Shorter stems are left unchanged. -/
theorem undoDoubling_eq (p : Str) (a b c : Char) :
    undoDoubling (p ++ [a, b, c]) =
      some (if (!("aeiou".toList.contains c.toLower)) = true ∧
              (!("aeiou".toList.contains b.toLower)) = true ∧
              (!("aeiou".toList.contains a.toLower)) = false
            then p ++ [a, b] else p ++ [a, b, c]) ∧
    ∀ base : Str, base.length ≤ 2 → undoDoubling base = some base := by
  constructor
  · have h1 : charAt (p ++ [a, b, c]) (((p ++ [a, b, c]).length : Int) - 1) = some c :=
      charAt_append_right p [a, b, c] 1 (by decide) (by simp)
    have h2 : charAt (p ++ [a, b, c]) (((p ++ [a, b, c]).length : Int) - 2) = some b :=
      charAt_append_right p [a, b, c] 2 (by decide) (by simp)
    have h3 : charAt (p ++ [a, b, c]) (((p ++ [a, b, c]).length : Int) - 3) = some a :=
      charAt_append_right p [a, b, c] 3 (by decide) (by simp)
    have hl : decide ((p ++ [a, b, c]).length > 2) = true := by
      apply decide_eq_true
      simp
    have hs : slice (p ++ [a, b, c]) 1 = p ++ [a, b] := by
      have := slice_append (p ++ [a, b]) [c]
      simpa using this
    unfold undoDoubling
    simp only [Nat.cast_ofNat, Nat.cast_one] at h1 h2 h3
    rw [hl, h1, h2, h3, hs]
    simp only [isConsonant, Option.map_some', andThen, Option.some_bind, if_true]
    generalize (!"aeiou".toList.contains a.toLower) = x
    generalize (!"aeiou".toList.contains b.toLower) = y
    generalize (!"aeiou".toList.contains c.toLower) = z
    cases x <;> cases y <;> cases z <;> simp
  · intro base hlen
    unfold undoDoubling
    rw [decide_eq_false (by omega)]
    rfl

/-- C18: `inferVerbForms` drops a final letter that duplicates nothing. The stem "jump" of
"jumping" and the stem "walk" of "walked" end in two different letters, yet the recorded 原形
is "jum" and "wal": the check asks for two consonants after a vowel, not for the same consonant
twice, against the source comments on that block (handle the doubled consonant, remove the
repeated consonant). -/
theorem inferVerbForms_drops_undoubled (allForms : Forms) :
    (slice "jumping".toList 3 = "jump".toList ∧
      ∃ f, inferVerbForms "jumping".toList allForms = some f ∧
        get f "原形".toList = some "jum".toList) ∧
    (slice "walked".toList 2 = "walk".toList ∧
      ∃ f, inferVerbForms "walked".toList allForms = some f ∧
        get f "原形".toList = some "wal".toList) := by
  refine ⟨⟨by decide, _, inferVerbForms_ing_eq "jumping".toList "jum".toList "jums".toList
      "jumed".toList allForms (by decide) (by decide) (by decide) (by decide), ?_⟩,
    ⟨by decide, _, inferVerbForms_ed_eq "walked".toList "wal".toList "wals".toList allForms
      (by decide) (by decide) (by decide) (by decide), ?_⟩⟩
  · rw [get_set_ne _ _ _ _ (by decide), get_set_ne _ _ _ _ (by decide),
      get_set_ne _ _ _ _ (by decide), get_set_ne _ _ _ _ (by decide), get_set_same]
  · rw [get_set_ne _ _ _ _ (by decide), get_set_ne _ _ _ _ (by decide),
      get_set_ne _ _ _ _ (by decide), get_set_ne _ _ _ _ (by decide), get_set_same]

/-! ## The exact failure set -/

theorem inferVerbForms_throws (allForms : Forms) :
    inferVerbForms "y".toList allForms = none ∧
    inferVerbForms "ying".toList allForms = none ∧
    inferVerbForms "yed".toList allForms = none := by
  have h3 : getThirdPersonSingular ['y'] = none := by decide
  refine ⟨?_, ?_, ?_⟩
  · unfold inferVerbForms
    rw [if_neg (by decide), if_neg (by decide)]
    simp only []
    rw [show getThirdPersonSingular "y".toList = none by decide]
    rfl
  · unfold inferVerbForms
    rw [if_pos (by decide), show undoDoubling (slice "ying".toList 3) = some ['y'] by decide]
    simp only [Option.some_bind]
    rw [h3]
    rfl
  · unfold inferVerbForms
    rw [if_neg (by decide), if_pos (by decide),
      show undoDoubling (slice "yed".toList 2) = some ['y'] by decide]
    simp only [Option.some_bind]
    rw [h3]
    rfl

theorem inferNounForms_throws (allForms : Forms) :
    inferNounForms "y".toList allForms = none := by
  unfold inferNounForms
  rw [if_neg (by decide)]
  simp only []
  rw [show getPluralForm "y".toList = none by decide]
  rfl

/-- C19: the exact failure set of the spelling fallback. `getThirdPersonSingular`,
`getPastTense` and `getPluralForm` throw (they pass the undefined character at index
`length - 2` to `isConsonant`) exactly when their argument is the one-letter word "y";
`inferVerbForms` throws if and only if the word is "y", "ying" or "yed"; `inferNounForms`
throws if and only if the word is "y"; the adjective fallback never throws. -/
theorem fallback_failure_set (w : Str) (allForms : Forms) :
    (getThirdPersonSingular w = none ↔ w = "y".toList) ∧
    (getPastTense w = none ↔ w = "y".toList) ∧
    (getPluralForm w = none ↔ w = "y".toList) ∧
    (charAt w ((w.length : Int) - 2) = none ∧ endsWith w "y".toList = true ↔ w = "y".toList) ∧
    (inferVerbForms w allForms = none ↔
      w = "y".toList ∨ w = "ying".toList ∨ w = "yed".toList) ∧
    (inferNounForms w allForms = none ↔ w = "y".toList) ∧
    inferFormsFromWord w "adjective".toList allForms = some (inferAdjectiveForms w allForms) := by
  refine ⟨getThirdPersonSingular_eq_none_iff w, getPastTense_eq_none_iff w,
    getPluralForm_eq_none_iff w, ?_, ?_, ?_, ?_⟩
  · constructor
    · rintro ⟨h1, h2⟩
      apply (endsY_consonant_eq_none_iff w).1
      rw [h2, h1]
      rfl
    · rintro rfl
      decide
  · constructor
    · intro h
      by_contra hne
      simp only [not_or] at hne
      obtain ⟨f, hf⟩ := inferVerbForms_returns w allForms hne.1 hne.2.1 hne.2.2
      rw [hf] at h
      cases h
    · rintro (rfl | rfl | rfl)
      · exact (inferVerbForms_throws allForms).1
      · exact (inferVerbForms_throws allForms).2.1
      · exact (inferVerbForms_throws allForms).2.2
  · constructor
    · intro h
      by_contra hne
      obtain ⟨f, hf⟩ := inferNounForms_returns w allForms hne
      rw [hf] at h
      cases h
    · rintro rfl
      exact inferNounForms_throws allForms
  · unfold inferFormsFromWord
    rw [if_neg (by decide), if_neg (by decide), if_pos rfl]

/-! ## The type when no sense is a verb -/

theorem sensesAfterLastNoun_concat (l : List Meaning) (a : Meaning) :
    sensesAfterLastNoun (l ++ [a]) =
      if a.partOfSpeech = "noun".toList then [] else sensesAfterLastNoun l ++ [a] := by
  unfold sensesAfterLastNoun
  rw [List.reverse_append, List.reverse_singleton, List.singleton_append, List.takeWhile_cons]
  by_cases h : a.partOfSpeech = "noun".toList
  · rw [if_neg (fun hd => (of_decide_eq_true hd) h), if_pos h]
    rfl
  · rw [if_pos (decide_eq_true h), if_neg h, List.reverse_cons]

theorem firstAdjectiveOrAdverb_cases (l : List Meaning) :
    firstAdjectiveOrAdverb l = "noun".toList ∨ firstAdjectiveOrAdverb l = "adjective".toList ∨
      firstAdjectiveOrAdverb l = "adverb".toList := by
  unfold firstAdjectiveOrAdverb
  split
  · rename_i m hm
    have := List.find?_some hm
    simp only [decide_eq_true_eq] at this
    exact Or.inr this
  · exact Or.inl rfl

theorem firstAdjectiveOrAdverb_concat (l : List Meaning) (a : Meaning) :
    firstAdjectiveOrAdverb (l ++ [a]) =
      if firstAdjectiveOrAdverb l = "noun".toList then
        (if a.partOfSpeech = "adjective".toList ∨ a.partOfSpeech = "adverb".toList then
          a.partOfSpeech else "noun".toList)
      else firstAdjectiveOrAdverb l := by
  unfold firstAdjectiveOrAdverb
  rw [List.find?_append, List.find?_singleton]
  cases hl : l.find? fun m =>
      decide (m.partOfSpeech = "adjective".toList ∨ m.partOfSpeech = "adverb".toList) with
  | none =>
    simp only [Option.or, if_true]
    by_cases ha : a.partOfSpeech = "adjective".toList ∨ a.partOfSpeech = "adverb".toList
    · rw [if_pos (decide_eq_true ha), if_pos ha]
    · rw [if_neg (by simpa using ha), if_neg ha]
  | some m =>
    have hm := List.find?_some hl
    simp only [decide_eq_true_eq] at hm
    have hne : m.partOfSpeech ≠ "noun".toList := by
      rcases hm with h | h <;> rw [h] <;> decide
    simp only [Option.or]
    rw [if_neg hne]

theorem stepMeaning_type_no_verb (state : Str × Forms) (a : Meaning)
    (hs : state.1 ≠ "verb".toList) (ha : a.partOfSpeech ≠ "verb".toList) :
    (stepMeaning state a).1 =
      if a.partOfSpeech = "noun".toList then "noun".toList
      else if state.1 = "noun".toList then
        (if a.partOfSpeech = "adjective".toList ∨ a.partOfSpeech = "adverb".toList then
          a.partOfSpeech else "noun".toList)
      else state.1 := by
  unfold stepMeaning
  rw [if_neg ha]
  by_cases h1 : a.partOfSpeech = "noun".toList
  · rw [if_pos h1, if_pos h1]
    show (if state.1 ≠ "verb".toList then "noun".toList else state.1) = "noun".toList
    rw [if_pos hs]
  · rw [if_neg h1, if_neg h1]
    by_cases h2 : a.partOfSpeech = "adjective".toList
    · rw [if_pos h2, if_pos (Or.inl h2), h2]
    · rw [if_neg h2]
      by_cases h3 : a.partOfSpeech = "adverb".toList
      · rw [if_pos h3, if_pos (Or.inr h3), h3]
      · rw [if_neg h3, if_neg (not_or.2 ⟨h2, h3⟩)]
        by_cases h4 : state.1 = "noun".toList
        · rw [if_pos h4, h4]
        · rw [if_neg h4]

theorem foldl_stepMeaning_type_no_verb (meanings : List Meaning) (state : Str × Forms)
    (hs : state.1 = "noun".toList) (hnv : ∀ m ∈ meanings, m.partOfSpeech ≠ "verb".toList) :
    (meanings.foldl stepMeaning state).1 =
      firstAdjectiveOrAdverb (sensesAfterLastNoun meanings) := by
  induction meanings using List.reverseRecOn with
  | nil =>
    show state.1 = _
    rw [hs]
    rfl
  | append_singleton l a ih =>
    have hl : ∀ m ∈ l, m.partOfSpeech ≠ "verb".toList := fun m hm =>
      hnv m (List.mem_append_left _ hm)
    have ha : a.partOfSpeech ≠ "verb".toList := hnv a (by simp)
    have ih := ih hl
    have hne : (l.foldl stepMeaning state).1 ≠ "verb".toList := by
      rw [ih]
      rcases firstAdjectiveOrAdverb_cases (sensesAfterLastNoun l) with h | h | h <;>
        rw [h] <;> decide
    rw [List.foldl_append, List.foldl_cons, List.foldl_nil,
      stepMeaning_type_no_verb _ a hne ha, sensesAfterLastNoun_concat, ih]
    by_cases h1 : a.partOfSpeech = "noun".toList
    · rw [if_pos h1, if_pos h1]
      rfl
    · rw [if_neg h1, if_neg h1, firstAdjectiveOrAdverb_concat]

/-- C20: the type depends on the order of the senses when none is a verb. For every list of
senses with no sense tagged 'verb', whenever `parseAPIResponse` returns (it does for every
word other than "y", "ying" and "yed"), the type is decided by the senses that follow the last
noun-tagged sense (all senses if none is tagged noun): it is the tag of the first
adjective- or adverb-tagged sense among them, and 'noun' if there is none. -/
theorem type_depends_on_sense_order (word : Str) (meanings : List Meaning)
    (hnv : ∀ m ∈ meanings, m.partOfSpeech ≠ "verb".toList) :
    (word ≠ "y".toList → word ≠ "ying".toList → word ≠ "yed".toList →
      ∃ r, parseAPIResponse word meanings = some r) ∧
    ∀ r, parseAPIResponse word meanings = some r →
      r.type = firstAdjectiveOrAdverb (sensesAfterLastNoun meanings) := by
  refine ⟨parseAPIResponse_returns word meanings, fun r hr => ?_⟩
  rw [parseAPIResponse_type_eq word meanings r hr]
  exact foldl_stepMeaning_type_no_verb meanings _ rfl hnv

/-- Witness of `type_depends_on_sense_order`: a noun sense followed by an adjective sense
gives 'adjective'; the same two senses in the opposite order give 'noun'. -/
theorem type_depends_on_sense_order_witness :
    (∃ r, parseAPIResponse "light".toList
        [⟨"noun".toList, []⟩, ⟨"adjective".toList, []⟩] = some r ∧
      r.type = "adjective".toList) ∧
    (∃ r, parseAPIResponse "light".toList
        [⟨"adjective".toList, []⟩, ⟨"noun".toList, []⟩] = some r ∧
      r.type = "noun".toList) := by
  constructor
  · obtain ⟨r, hr⟩ := (type_depends_on_sense_order "light".toList
      [⟨"noun".toList, []⟩, ⟨"adjective".toList, []⟩] (by decide)).1
      (by decide) (by decide) (by decide)
    refine ⟨r, hr, ?_⟩
    rw [(type_depends_on_sense_order _ _ (by decide)).2 r hr]
    decide
  · obtain ⟨r, hr⟩ := (type_depends_on_sense_order "light".toList
      [⟨"adjective".toList, []⟩, ⟨"noun".toList, []⟩] (by decide)).1
      (by decide) (by decide) (by decide)
    refine ⟨r, hr, ?_⟩
    rw [(type_depends_on_sense_order _ _ (by decide)).2 r hr]
    decide

/-! ## The noun round trip on the irregular-spelling branches -/

/-- The plural-looking branches of `inferNounForms` on a word in "ies", on a word in "ves" and
on a word in "ches", "shes", "xes" or "zes", each longer than 3 characters. -/
theorem inferNounForms_plural_branches (w : Str) (allForms : Forms) (hlen : 3 < w.length) :
    (endsWith w "ies".toList = true →
      inferNounForms w allForms =
        some (set (set allForms "单数".toList (slice w 3 ++ "y".toList)) "复数".toList w)) ∧
    (endsWith w "ves".toList = true →
      inferNounForms w allForms =
        some (set (set allForms "单数".toList (slice w 3 ++ "f".toList)) "复数".toList w)) ∧
    (endsWith w "ches".toList = true ∨ endsWith w "shes".toList = true ∨
        endsWith w "xes".toList = true ∨ endsWith w "zes".toList = true →
      inferNounForms w allForms =
        some (set (set allForms "单数".toList (slice w 2)) "复数".toList w)) := by
  refine ⟨fun h => ?_, fun h => ?_, fun h => ?_⟩
  · unfold inferNounForms
    rw [endsWith_of_suffix w _ "s".toList h (by decide), decide_eq_true hlen, h]
    rfl
  · unfold inferNounForms
    rw [endsWith_of_suffix w _ "s".toList h (by decide), decide_eq_true hlen,
      not_endsWith_of_endsWith w _ "ies".toList h (by decide) (by decide), h]
    rfl
  · have hs : endsWith w "s".toList = true := by
      rcases h with h | h | h | h
      · exact endsWith_of_suffix w _ _ h (by decide)
      · exact endsWith_of_suffix w _ _ h (by decide)
      · exact endsWith_of_suffix w _ _ h (by decide)
      · exact endsWith_of_suffix w _ _ h (by decide)
    have hies : endsWith w "ies".toList = false := by
      rcases h with h | h | h | h
      · exact not_endsWith_of_endsWith w _ _ h (by decide) (by decide)
      · exact not_endsWith_of_endsWith w _ _ h (by decide) (by decide)
      · exact not_endsWith_of_endsWith w _ _ h (by decide) (by decide)
      · exact not_endsWith_of_endsWith w _ _ h (by decide) (by decide)
    have hves : endsWith w "ves".toList = false := by
      rcases h with h | h | h | h
      · exact not_endsWith_of_endsWith w _ _ h (by decide) (by decide)
      · exact not_endsWith_of_endsWith w _ _ h (by decide) (by decide)
      · exact not_endsWith_of_endsWith w _ _ h (by decide) (by decide)
      · exact not_endsWith_of_endsWith w _ _ h (by decide) (by decide)
    have hsib : (endsWith w "ches".toList || endsWith w "shes".toList ||
        endsWith w "xes".toList || endsWith w "zes".toList) = true := by
      rcases h with h | h | h | h <;> rw [h] <;> simp
    unfold inferNounForms
    rw [hs, decide_eq_true hlen, hies, hves, hsib]
    rfl

/-- A word that ends in `a` gives, with `b` appended, a word that ends in `a + b`. -/
theorem endsWith_append (n a b : Str) (h : endsWith n a = true) :
    endsWith (n ++ b) (a ++ b) = true := by
  obtain ⟨t, rfl⟩ := (endsWith_iff _ _).1 h
  exact (endsWith_iff _ _).2 ⟨t, by rw [List.append_assoc]⟩

/-- The plural of a noun in sh, ch, x or z, of a noun in f, and of a lowercase noun in
consonant + y of at least two characters. -/
theorem getPluralForm_irregular (n : Str) :
    (endsWith n "sh".toList = true ∨ endsWith n "ch".toList = true ∨
        endsWith n "x".toList = true ∨ endsWith n "z".toList = true →
      getPluralForm n = some (n ++ "es".toList)) ∧
    (endsWith n "f".toList = true → getPluralForm n = some (slice n 1 ++ "ves".toList)) ∧
    (endsInConsonantY n = true → (∀ c ∈ n, c.isLower = true) → 2 ≤ n.length →
      getPluralForm n = some (slice n 1 ++ "ies".toList)) := by
  refine ⟨fun h => ?_, fun hf => ?_, fun hy hlow hlen => ?_⟩
  · unfold getPluralForm
    rw [if_pos]
    rcases h with h | h | h | h <;> rw [h] <;> simp
  · unfold getPluralForm
    rw [not_endsWith_of_endsWith n _ "s".toList hf (by decide) (by decide),
      not_endsWith_of_endsWith n _ "sh".toList hf (by decide) (by decide),
      not_endsWith_of_endsWith n _ "ch".toList hf (by decide) (by decide),
      not_endsWith_of_endsWith n _ "x".toList hf (by decide) (by decide),
      not_endsWith_of_endsWith n _ "z".toList hf (by decide) (by decide),
      not_endsWith_of_endsWith n _ "y".toList hf (by decide) (by decide), hf]
    rfl
  · have hne : n ≠ "y".toList := by
      intro h
      rw [h] at hlen
      exact absurd hlen (by decide)
    have hey : endsWith n "y".toList = true := by
      unfold endsInConsonantY at hy
      rw [Bool.and_eq_true] at hy
      exact hy.1
    unfold getPluralForm
    rw [endsY_consonant_eq n hlow hne, hy,
      not_endsWith_of_endsWith n _ "s".toList hey (by decide) (by decide),
      not_endsWith_of_endsWith n _ "sh".toList hey (by decide) (by decide),
      not_endsWith_of_endsWith n _ "ch".toList hey (by decide) (by decide),
      not_endsWith_of_endsWith n _ "x".toList hey (by decide) (by decide),
      not_endsWith_of_endsWith n _ "z".toList hey (by decide) (by decide)]
    rfl

/-- C21: the noun round trip on the irregular-spelling branches. For every noun `n` of length
at least 2 that ends in a consonant followed by y (`n` lowercase), or in sh, ch, x or z, or in
f, `getPluralForm(n)` returns, and `inferNounForms` applied to that plural returns and records
单数 = `n` and 复数 = `getPluralForm(n)`. -/
theorem irregular_plural_round_trip (n : Str) (allForms : Forms) (hlen : 2 ≤ n.length)
    (h : (endsInConsonantY n = true ∧ ∀ c ∈ n, c.isLower = true) ∨
      endsWith n "sh".toList = true ∨ endsWith n "ch".toList = true ∨
      endsWith n "x".toList = true ∨ endsWith n "z".toList = true ∨
      endsWith n "f".toList = true) :
    ∃ plural f, getPluralForm n = some plural ∧ inferNounForms plural allForms = some f ∧
      get f "单数".toList = some n ∧ get f "复数".toList = some plural := by
  have hget : ∀ (g : Forms) (a b : Str),
      get (set (set g "单数".toList a) "复数".toList b) "单数".toList = some a ∧
      get (set (set g "单数".toList a) "复数".toList b) "复数".toList = some b := fun g a b =>
    ⟨by rw [get_set_ne _ _ _ _ (by decide), get_set_same], get_set_same _ _ _⟩
  have hsib : endsWith n "sh".toList = true ∨ endsWith n "ch".toList = true ∨
      endsWith n "x".toList = true ∨ endsWith n "z".toList = true →
      ∃ plural f, getPluralForm n = some plural ∧ inferNounForms plural allForms = some f ∧
        get f "单数".toList = some n ∧ get f "复数".toList = some plural := by
    intro hs
    have hl : 3 < (n ++ "es".toList).length := by
      rw [List.length_append]
      have : "es".toList.length = 2 := rfl
      omega
    have he : endsWith (n ++ "es".toList) "ches".toList = true ∨
        endsWith (n ++ "es".toList) "shes".toList = true ∨
        endsWith (n ++ "es".toList) "xes".toList = true ∨
        endsWith (n ++ "es".toList) "zes".toList = true := by
      rcases hs with h1 | h1 | h1 | h1
      · exact Or.inr (Or.inl (endsWith_append n "sh".toList "es".toList h1))
      · exact Or.inl (endsWith_append n "ch".toList "es".toList h1)
      · exact Or.inr (Or.inr (Or.inl (endsWith_append n "x".toList "es".toList h1)))
      · exact Or.inr (Or.inr (Or.inr (endsWith_append n "z".toList "es".toList h1)))
    refine ⟨_, _, (getPluralForm_irregular n).1 hs,
      (inferNounForms_plural_branches _ allForms hl).2.2 he, ?_⟩
    have e : slice (n ++ "es".toList) 2 = n := slice_append n "es".toList
    rw [e]
    exact hget _ _ _
  rcases h with ⟨hy, hlow⟩ | h1 | h1 | h1 | h1 | hf
  · have hey : endsWith n "y".toList = true := by
      unfold endsInConsonantY at hy
      rw [Bool.and_eq_true] at hy
      exact hy.1
    have hl : 3 < (slice n 1 ++ "ies".toList).length := by
      rw [List.length_append, length_slice]
      have : "ies".toList.length = 3 := rfl
      omega
    have hn : slice n 1 ++ "y".toList = n := (eq_slice_append n "y".toList hey).symm
    refine ⟨_, _, (getPluralForm_irregular n).2.2 hy hlow hlen,
      (inferNounForms_plural_branches _ allForms hl).1
        ((endsWith_iff _ _).2 (List.suffix_append _ _)), ?_⟩
    have e : slice (slice n 1 ++ "ies".toList) 3 = slice n 1 :=
      slice_append (slice n 1) "ies".toList
    rw [e, hn]
    exact hget _ _ _
  · exact hsib (Or.inl h1)
  · exact hsib (Or.inr (Or.inl h1))
  · exact hsib (Or.inr (Or.inr (Or.inl h1)))
  · exact hsib (Or.inr (Or.inr (Or.inr h1)))
  · have hl : 3 < (slice n 1 ++ "ves".toList).length := by
      rw [List.length_append, length_slice]
      have : "ves".toList.length = 3 := rfl
      omega
    have hn : slice n 1 ++ "f".toList = n := (eq_slice_append n "f".toList hf).symm
    refine ⟨_, _, (getPluralForm_irregular n).2.1 hf,
      (inferNounForms_plural_branches _ allForms hl).2.1
        ((endsWith_iff _ _).2 (List.suffix_append _ _)), ?_⟩
    have e : slice (slice n 1 ++ "ves".toList) 3 = slice n 1 :=
      slice_append (slice n 1) "ves".toList
    rw [e, hn]
    exact hget _ _ _

/-- Witness of `irregular_plural_round_trip`: "city" (plural "cities"), "box" (plural
"boxes") and "leaf" (plural "leaves") come back as the recorded 单数. -/
theorem irregular_plural_round_trip_witness :
    (∃ plural f, getPluralForm "city".toList = some plural ∧
      inferNounForms plural [] = some f ∧
      get f "单数".toList = some "city".toList ∧ get f "复数".toList = some plural) ∧
    (∃ plural f, getPluralForm "box".toList = some plural ∧
      inferNounForms plural [] = some f ∧
      get f "单数".toList = some "box".toList ∧ get f "复数".toList = some plural) ∧
    (∃ plural f, getPluralForm "leaf".toList = some plural ∧
      inferNounForms plural [] = some f ∧
      get f "单数".toList = some "leaf".toList ∧ get f "复数".toList = some plural) :=
  ⟨irregular_plural_round_trip "city".toList [] (by decide) (Or.inl ⟨by decide, by decide⟩),
    irregular_plural_round_trip "box".toList [] (by decide)
      (Or.inr (Or.inr (Or.inr (Or.inl (by decide))))),
    irregular_plural_round_trip "leaf".toList [] (by decide)
      (Or.inr (Or.inr (Or.inr (Or.inr (Or.inr (by decide))))))⟩

end DCCJ
